import Mathlib

/-!
Verification of the uni10 tensor-network library core against its
natural-language specification.

The development shallowly embeds the code that is present in the repository:

* `nptensor.py.in` — the numpy tensor shim (`NPTensor.__new__`,
  `NPTensor.setLabel`, `NPTensor.permute`, `contractNPT`, `mergeNPT`,
  `launchNPT`) is embedded as the structure `NPTensor` and the functions
  below it.  An `NPTensor` is modelled as its metadata (`bn`, `ibn`,
  `label`, `shape`) together with its element data, a rational-valued
  function of the multi-index (exact rationals stand in for the machine
  doubles).  Fallible operations (python `assert` statements, numpy errors)
  return `Option`.
* `guni10.cu`-style blocked matrix multiply `myDgemm` (the unnamed source
  file) is embedded over matrices as functions `Nat → Nat → ℚ`.
* The symmetric-tensor block layout (`UniTensor::grouping`), the
  contraction-tree heuristic (`Node_t::metric`, `Network_t::construct`) and
  the fermionic swap bookkeeping (`Network_t::recSwap`) exist in the
  repository only as C++ declarations; the corresponding definitions below
  are modelled from the specification text and are marked as such in their
  doc comments.
-/

/-! ### List preliminaries -/

/-- All multi-indices over the given per-axis dimensions, in lexicographic
order with the first axis most significant (numpy C order). -/
def indexSet : List Nat → List (List Nat)
  | [] => [[]]
  | d :: ds => (List.range d).flatMap (fun i => (indexSet ds).map (fun I => i :: I))

/-- `lastHit n P i₀` mimics a python `dict` built by
`for i in range(n): m[key i] = i`: the value finally stored is the last
`i < n` satisfying the predicate, or the initial value when none does. -/
def lastHit (n : Nat) (P : Nat → Bool) (init : Nat) : Nat :=
  (List.range n).foldl (fun acc i => if P i then i else acc) init

/-- `dictIdx xs a` is `lbmap[a]` for the python dict built by
`mapLabelBond`: `for i in range(len(xs)): lbmap[xs[i]] = i`
(later occurrences overwrite earlier ones). -/
def dictIdx (xs : List Int) (a : Int) : Nat :=
  lastHit xs.length (fun i => xs.getD i 0 = a) 0

theorem lastHit_succ (n : Nat) (P : Nat → Bool) (init : Nat) :
    lastHit (n + 1) P init = if P n then n else lastHit n P init := by
  unfold lastHit
  rw [List.range_succ, List.foldl_append]
  rfl

theorem lastHit_spec (n : Nat) (P : Nat → Bool) (init : Nat)
    (h : ∃ i, i < n ∧ P i) : P (lastHit n P init) ∧ lastHit n P init < n := by
  induction n with
  | zero => obtain ⟨i, hi, _⟩ := h; omega
  | succ m ih =>
      rw [lastHit_succ]
      by_cases hm : P m
      · simp [hm]
      · simp only [hm, if_false]
        obtain ⟨i, hi, hPi⟩ := h
        have hlt : i < m := by
          rcases Nat.lt_succ_iff_lt_or_eq.mp hi with h1 | h1
          · exact h1
          · exact absurd (h1 ▸ hPi) hm
        obtain ⟨h1, h2⟩ := ih ⟨i, hlt, hPi⟩
        exact ⟨h1, Nat.lt_succ_of_lt h2⟩

theorem lastHit_eq_of_unique (n : Nat) (P : Nat → Bool) (init : Nat) (i : Nat)
    (hi : i < n) (hPi : P i) (huniq : ∀ j, j < n → P j → j = i) :
    lastHit n P init = i := by
  induction n with
  | zero => omega
  | succ m ih =>
      rw [lastHit_succ]
      by_cases hm : P m
      · simpa [hm] using huniq m (Nat.lt_succ_self m) hm
      · have him : i < m := by
          rcases Nat.lt_succ_iff_lt_or_eq.mp hi with h1 | h1
          · exact h1
          · exact absurd (h1 ▸ hPi) hm
        simp only [hm, if_false]
        exact ih him (fun j hj hPj => huniq j (Nat.lt_succ_of_lt hj) hPj)

theorem dictIdx_of_nodup (xs : List Int) (hnd : xs.Nodup) (i : Nat)
    (hi : i < xs.length) : dictIdx xs (xs.getD i 0) = i := by
  refine lastHit_eq_of_unique _ _ _ i hi (by simp) ?_
  intro j hj hPj
  have hji : xs.getD j 0 = xs.getD i 0 := by simpa using hPj
  rw [List.getD_eq_getElem xs 0 hj, List.getD_eq_getElem xs 0 hi] at hji
  exact (hnd.getElem_inj_iff).mp hji

theorem lastHit_exists (xs : List Int) (a : Int) (ha : a ∈ xs) :
    ∃ j, j < xs.length ∧ (fun j => decide (xs.getD j 0 = a)) j = true := by
  obtain ⟨i, hi, hxi⟩ := List.getElem_of_mem ha
  refine ⟨i, hi, ?_⟩
  simp only [decide_eq_true_eq]
  rw [List.getD_eq_getElem xs 0 hi]
  exact hxi

theorem dictIdx_lt (xs : List Int) (a : Int) (ha : a ∈ xs) :
    dictIdx xs a < xs.length :=
  (lastHit_spec xs.length (fun j => decide (xs.getD j 0 = a)) 0
    (lastHit_exists xs a ha)).2

theorem getD_dictIdx (xs : List Int) (a : Int) (ha : a ∈ xs) :
    xs.getD (dictIdx xs a) 0 = a := by
  have h := (lastHit_spec xs.length (fun j => decide (xs.getD j 0 = a)) 0
    (lastHit_exists xs a ha)).1
  exact of_decide_eq_true h

theorem dictIdx_eq_indexOf (xs : List Int) (hnd : xs.Nodup) (a : Int)
    (ha : a ∈ xs) : dictIdx xs a = List.indexOf a xs := by
  have hlt : List.indexOf a xs < xs.length := List.indexOf_lt_length.mpr ha
  have : xs.getD (List.indexOf a xs) 0 = a := by
    rw [List.getD_eq_getElem xs 0 hlt]; exact List.getElem_indexOf hlt
  calc dictIdx xs a = dictIdx xs (xs.getD (List.indexOf a xs) 0) := by rw [this]
    _ = List.indexOf a xs := dictIdx_of_nodup xs hnd _ hlt

/-- Recover a list from its `getD` values: `(range n).map (l.getD · 0) = l`
whenever `l` has length `n`. -/
theorem map_range_getD {α : Type} (l : List α) (n : Nat) (d : α)
    (h : l.length = n) : (List.range n).map (fun k => l.getD k d) = l := by
  apply List.ext_getElem
  · simp [h]
  · intro k h1 h2
    simp only [List.getElem_map, List.getElem_range]
    exact List.getD_eq_getElem l d h2

theorem getD_map_of_lt {α β : Type} (f : α → β) (l : List α) (k : Nat)
    (d : α) (hd : β) (h : k < l.length) :
    (l.map f).getD k hd = f (l.getD k d) := by
  rw [List.getD_eq_getElem _ hd (by simpa using h), List.getElem_map,
    List.getD_eq_getElem l d h]

theorem mem_indexSet_iff (S : List Nat) (I : List Nat) :
    I ∈ indexSet S ↔
      I.length = S.length ∧ ∀ k, k < S.length → I.getD k 0 < S.getD k 0 := by
  induction S generalizing I with
  | nil => simp [indexSet, List.length_eq_zero]
  | cons d ds ih =>
      simp only [indexSet, List.mem_flatMap, List.mem_map, List.mem_range]
      constructor
      · rintro ⟨i, hi, I', hI', rfl⟩
        obtain ⟨hlen, hbd⟩ := (ih I').mp hI'
        refine ⟨by simp [hlen], ?_⟩
        intro k hk
        cases k with
        | zero => simpa using hi
        | succ m => simpa using hbd m (by simpa using hk)
      · rintro ⟨hlen, hbd⟩
        cases I with
        | nil => simp at hlen
        | cons i I' =>
            refine ⟨i, by simpa using hbd 0 (by simp), I', ?_, rfl⟩
            refine (ih I').mpr ⟨by simpa using hlen, ?_⟩
            intro k hk
            simpa using hbd (k + 1) (by simpa using hk)

theorem indexSet_nodup (S : List Nat) : (indexSet S).Nodup := by
  induction S with
  | nil => simp [indexSet]
  | cons d ds ih =>
      rw [indexSet, List.nodup_flatMap]
      constructor
      · intro i _
        exact ih.map (fun a b h => by injection h)
      · refine List.Pairwise.imp ?_ (List.nodup_range d)
        intro i j hij
        simp only [Function.onFun, List.disjoint_left]
        rintro x hx hx2
        obtain ⟨I1, _, rfl⟩ := List.mem_map.mp hx
        obtain ⟨I2, _, h2⟩ := List.mem_map.mp hx2
        exact hij (by injection h2 with h3 _; exact h3.symm)

theorem indexSet_length (S : List Nat) : (indexSet S).length = S.prod := by
  induction S with
  | nil => simp [indexSet]
  | cons d ds ih =>
      rw [indexSet, List.length_flatMap]
      simp [Function.comp_def, ih, List.map_const', List.sum_replicate,
        smul_eq_mul]

/-! ### Permutations of `range n` given as lists of axes -/

/-- `IsAxesPerm axes n`: `axes` is a permutation of `0, …, n-1`, the form in
which numpy's `transpose` receives a permutation of the axes. -/
def IsAxesPerm (axes : List Nat) (n : Nat) : Prop :=
  axes.length = n ∧ axes.Nodup ∧ ∀ a ∈ axes, a < n

instance (axes : List Nat) (n : Nat) : Decidable (IsAxesPerm axes n) := by
  unfold IsAxesPerm; infer_instance

theorem IsAxesPerm.mem_of_lt {axes : List Nat} {n : Nat} (h : IsAxesPerm axes n)
    {m : Nat} (hm : m < n) : m ∈ axes := by
  obtain ⟨hlen, hnd, hlt⟩ := h
  have hsub : axes.toFinset ⊆ Finset.range n := by
    intro a ha
    exact Finset.mem_range.mpr (hlt a (List.mem_toFinset.mp ha))
  have hcard : (Finset.range n).card ≤ axes.toFinset.card := by
    rw [Finset.card_range, List.toFinset_card_of_nodup hnd, hlen]
  have heq : axes.toFinset = Finset.range n :=
    Finset.eq_of_subset_of_card_le hsub hcard
  have : m ∈ axes.toFinset := heq ▸ Finset.mem_range.mpr hm
  exact List.mem_toFinset.mp this

theorem IsAxesPerm.perm_range {axes : List Nat} {n : Nat}
    (h : IsAxesPerm axes n) : axes.Perm (List.range n) := by
  obtain ⟨hlen, hnd, hlt⟩ := h
  refine List.perm_of_nodup_nodup_toFinset_eq hnd (List.nodup_range n) ?_
  have hsub : axes.toFinset ⊆ Finset.range n := by
    intro a ha
    exact Finset.mem_range.mpr (hlt a (List.mem_toFinset.mp ha))
  have hcard : (Finset.range n).card ≤ axes.toFinset.card := by
    rw [Finset.card_range, List.toFinset_card_of_nodup hnd, hlen]
  have hr : (List.range n).toFinset = Finset.range n := by
    ext a; simp
  rw [hr]
  exact Finset.eq_of_subset_of_card_le hsub hcard

theorem IsAxesPerm.getD_indexOf {axes : List Nat} {n : Nat}
    (h : IsAxesPerm axes n) {m : Nat} (hm : m < n) :
    axes.getD (List.indexOf m axes) 0 = m := by
  have hmem : m ∈ axes := h.mem_of_lt hm
  have hlt : List.indexOf m axes < axes.length := List.indexOf_lt_length.mpr hmem
  rw [List.getD_eq_getElem axes 0 hlt]
  exact List.getElem_indexOf hlt

theorem IsAxesPerm.indexOf_getD {axes : List Nat} {n : Nat}
    (h : IsAxesPerm axes n) {k : Nat} (hk : k < n) :
    List.indexOf (axes.getD k 0) axes = k := by
  have hklen : k < axes.length := h.1 ▸ hk
  rw [List.getD_eq_getElem axes 0 hklen]
  exact List.indexOf_getElem h.2.1 k hklen

theorem IsAxesPerm.indexOf_lt {axes : List Nat} {n : Nat}
    (h : IsAxesPerm axes n) {m : Nat} (hm : m < n) :
    List.indexOf m axes < n :=
  h.1 ▸ List.indexOf_lt_length.mpr (h.mem_of_lt hm)

theorem IsAxesPerm.getD_lt {axes : List Nat} {n : Nat}
    (h : IsAxesPerm axes n) {k : Nat} (hk : k < n) :
    axes.getD k 0 < n := by
  have hklen : k < axes.length := h.1 ▸ hk
  exact h.2.2 _ (List.getD_eq_getElem axes 0 hklen ▸ List.getElem_mem hklen)

/-- The index motion of `numpy.transpose`: if `b = a.transpose(axes)` then
`b[I] = a[J]` with `J[axes[k]] = I[k]`, i.e. `J[m] = I[axes.index(m)]`. -/
def transposeIdx (axes : List Nat) (n : Nat) (I : List Nat) : List Nat :=
  (List.range n).map (fun m => I.getD (List.indexOf m axes) 0)

theorem transposeIdx_length (axes : List Nat) (n : Nat) (I : List Nat) :
    (transposeIdx axes n I).length = n := by
  simp [transposeIdx]

theorem transposeIdx_getD {axes : List Nat} {n : Nat} (I : List Nat) {m : Nat}
    (hm : m < n) :
    (transposeIdx axes n I).getD m 0 = I.getD (List.indexOf m axes) 0 := by
  have hr : (List.range n).getD m 0 = m := by
    rw [List.getD_eq_getElem _ 0 (by simpa using hm)]
    exact List.getElem_range m _
  unfold transposeIdx
  rw [getD_map_of_lt _ _ m 0 0 (by simpa using hm), hr]

/-- Inverse index motion: apply `axes` itself to select positions. -/
def gatherIdx (axes : List Nat) (J : List Nat) : List Nat :=
  axes.map (fun a => J.getD a 0)

theorem gatherIdx_getD {axes : List Nat} (J : List Nat) {k : Nat}
    (hk : k < axes.length) :
    (gatherIdx axes J).getD k 0 = J.getD (axes.getD k 0) 0 := by
  unfold gatherIdx
  exact getD_map_of_lt _ _ k 0 0 hk

theorem transposeIdx_gatherIdx {axes : List Nat} {n : Nat}
    (h : IsAxesPerm axes n) (J : List Nat) (hJ : J.length = n) :
    transposeIdx axes n (gatherIdx axes J) = J := by
  apply List.ext_getElem
  · simp [transposeIdx, hJ]
  · intro m h1 h2
    have hm : m < n := by simpa [transposeIdx] using h1
    have e1 : (transposeIdx axes n (gatherIdx axes J)).getD m 0 =
        (transposeIdx axes n (gatherIdx axes J))[m] :=
      List.getD_eq_getElem _ 0 h1
    rw [← e1, transposeIdx_getD _ hm,
      gatherIdx_getD J (h.1 ▸ h.indexOf_lt hm), h.getD_indexOf hm,
      List.getD_eq_getElem J 0 h2]

theorem gatherIdx_transposeIdx {axes : List Nat} {n : Nat}
    (h : IsAxesPerm axes n) (I : List Nat) (hI : I.length = n) :
    gatherIdx axes (transposeIdx axes n I) = I := by
  apply List.ext_getElem
  · simp [gatherIdx, h.1, hI]
  · intro k h1 h2
    have hk : k < n := by simpa [gatherIdx, h.1] using h1
    have e1 : (gatherIdx axes (transposeIdx axes n I)).getD k 0 =
        (gatherIdx axes (transposeIdx axes n I))[k] :=
      List.getD_eq_getElem _ 0 h1
    rw [← e1, gatherIdx_getD _ (h.1 ▸ hk), transposeIdx_getD _ (h.getD_lt hk),
      h.indexOf_getD hk, List.getD_eq_getElem I 0 h2]

/-- Characterisation of `transposeIdx` by its defining equations: the unique
list `J` of length `n` with `J[axes[k]] = I[k]` for all `k < n`. -/
theorem transposeIdx_eq_of_spec {axes : List Nat} {n : Nat}
    (h : IsAxesPerm axes n) (I J : List Nat) (hJ : J.length = n)
    (hspec : ∀ k, k < n → J.getD (axes.getD k 0) 0 = I.getD k 0) :
    transposeIdx axes n I = J := by
  apply List.ext_getElem
  · simp [transposeIdx, hJ]
  · intro m h1 h2
    have hm : m < n := by simpa [transposeIdx] using h1
    have e1 : (transposeIdx axes n I).getD m 0 = (transposeIdx axes n I)[m] :=
      List.getD_eq_getElem _ 0 h1
    rw [← e1, transposeIdx_getD _ hm, ← hspec _ (h.indexOf_lt hm),
      h.getD_indexOf hm, List.getD_eq_getElem J 0 h2]

/-! ### The numpy tensor shim (`nptensor.py.in`) -/

/-- An `NPTensor` (`nptensor.py.in`): a dense trivial-charge tensor.  It is a
numpy array (`shape`, elements) together with the attributes set by
`NPTensor.__new__`: `bn` (bond count), `ibn` (incoming-bond count) and the
per-bond integer labels.  Element data is the value at each multi-index; exact
rationals stand in for the machine doubles.  The derived `lbmap` dict is not
stored: it is recomputed by `mapLabelBond` from `label` and is modelled by
`dictIdx` (last occurrence wins, as for a python dict). -/
structure NPTensor where
  bn : Nat
  ibn : Nat
  label : List Int
  shape : List Nat
  elem : List Nat → ℚ

instance : Inhabited NPTensor :=
  ⟨{ bn := 0, ibn := 0, label := [], shape := [], elem := fun _ => 0 }⟩

/-- `NPTensor.setLabel` (`nptensor.py.in` lines 36-39): asserts
`len(label) == len(self.shape)` and then overwrites the label tuple
(`mapLabelBond` only rebuilds the derived dict).  The python `assert` is the
`none` branch.  Note: the source checks only the count, not distinctness. -/
def NPTensor.setLabel (t : NPTensor) (label : List Int) : Option NPTensor :=
  if label.length = t.shape.length then some { t with label := label } else none

/-- The axis list `shape_new` computed by `NPTensor.permute`:
`[self.lbmap[label[i]] for i in xrange(self.bn)]`. -/
def NPTensor.axesOf (t : NPTensor) (label : List Int) : List Nat :=
  (List.range t.bn).map (fun i => dictIdx t.label (label.getD i 0))

/-- `numpy.ndarray.transpose(axes)`: requires `axes` to be a permutation of
`range(ndim)` (else numpy raises), permutes the shape and moves element
`a[J]` to `b[I]` with `J = transposeIdx axes ndim I`. -/
def NPTensor.transposeNP (t : NPTensor) (axes : List Nat) : Option NPTensor :=
  if IsAxesPerm axes t.shape.length then
    some { t with
            shape := axes.map (fun a => t.shape.getD a 0),
            elem := fun I => t.elem (transposeIdx axes t.shape.length I) }
  else none

/-- `NPTensor.permute` (`nptensor.py.in` lines 41-49): asserts that the new
labels are a rearrangement of the current ones, transposes the underlying
array by the axis list from `lbmap`, then restores `bn`, sets `ibn`
(keeping the old one when the argument is negative, the python default `-1`)
and installs the new labels via `setLabel`. -/
def NPTensor.permute (t : NPTensor) (label : List Int) (ibn : Int) : Option NPTensor :=
  if label.length = t.label.length ∧ label.toFinset = t.label.toFinset then
    match t.transposeNP (t.axesOf label) with
    | none => none
    | some npt =>
        NPTensor.setLabel
          { npt with bn := t.bn, ibn := if 0 ≤ ibn then ibn.toNat else t.ibn }
          label
  else none

/-- `NPTensor.__new__` on a plain ndarray with no tensor attributes
(the `except AttributeError` branch of `nptensor.py.in` lines 18-27):
`bn = ndim`, `ibn = bn`, `label = range(bn)`. -/
def NPTensor.ofArray (shape : List Nat) (elem : List Nat → ℚ) : NPTensor :=
  { bn := shape.length
    ibn := shape.length
    label := (List.range shape.length).map Int.ofNat
    shape := shape
    elem := elem }

/-- The free (uncontracted) axis positions of one `tensordot` operand, in
ascending order: `notin = [k for k in range(ndim) if k not in axes]`. -/
def freePos (n : Nat) (idx : List Nat) : List Nat :=
  (List.range n).filter (fun a => a ∉ idx)

/-- Full source index for one operand of `numpy.tensordot`: contracted axes
(positions `cpos`) take the values `c`, the remaining axes take the free
values `F` in ascending axis order. -/
def buildIdx (n : Nat) (cpos : List Nat) (c F : List Nat) : List Nat :=
  (List.range n).map (fun m =>
    if m ∈ cpos then c.getD (List.indexOf m cpos) 0
    else F.getD (List.indexOf m (freePos n cpos)) 0)

/-- Element data of `numpy.tensordot(t1, t2, axes=(idx1, idx2))`: the free
axes of `t1` (ascending), then those of `t2`, summing the products over the
contracted multi-indices. -/
def tensordotElem (t1 t2 : NPTensor) (idx1 idx2 : List Nat) : List Nat → ℚ :=
  fun I =>
    ((indexSet (idx1.map (fun a => t1.shape.getD a 0))).map (fun c =>
      t1.elem (buildIdx t1.shape.length idx1 c
        (I.take (freePos t1.shape.length idx1).length)) *
      t2.elem (buildIdx t2.shape.length idx2 c
        (I.drop (freePos t1.shape.length idx1).length)))).sum

/-- `lab_common` of `contractNPT`: `list(set(lab1).intersection(lab2))`,
modelled in first-occurrence order of `lab1` (the python set iteration order
is unspecified; no statement below depends on it). -/
def labCommon (t1 t2 : NPTensor) : List Int :=
  (t1.label.filter (fun x => x ∈ t2.label)).dedup

/-- `lab_final` of `contractNPT`: all labels of both operands that are not
contracted away. -/
def labFinal (t1 t2 : NPTensor) : List Int :=
  (t1.label ++ t2.label).filter (fun x => x ∉ labCommon t1 t2)

/-- `lab_ot` of `contractNPT` (the no-shared-label branch): `t1`'s IN
labels, then `t2`'s IN labels, then `t1`'s OUT labels, then `t2`'s OUT
labels, read off by position as in the source. -/
def labOt (t1 t2 : NPTensor) : List Int :=
  ((List.range t1.ibn).map (fun i => t1.label.getD i 0)) ++
    (((List.range t2.ibn).map (fun i => t2.label.getD i 0)) ++
      (((List.range' t1.ibn (t1.bn - t1.ibn)).map (fun i => t1.label.getD i 0)) ++
        ((List.range' t2.ibn (t2.bn - t2.ibn)).map (fun i => t2.label.getD i 0))))

/-- `idx1`/`idx2` of `contractNPT`: the axis positions of the shared labels
in one operand, via the label dict. -/
def idxList (t : NPTensor) (com : List Int) : List Nat :=
  com.map (fun l => dictIdx t.label l)

/-- `contractNPT` (`nptensor.py.in` lines 69-89).  With shared labels
present, `numpy.tensordot` contracts the corresponding axis pairs — failing
(`none`) exactly when some paired axes have different lengths — and the
result gets labels `lab_final` and `ibn = len(lab1) - nlc`.  With no shared
label, the outer product (`tensordot(…, axes=0)`) is relabelled and
permuted to `lab_ot` with `ibn = t1.ibn + t2.ibn`. -/
def contractNPT (t1 t2 : NPTensor) : Option NPTensor :=
  if 0 < (labCommon t1 t2).length then
    if (idxList t1 (labCommon t1 t2)).map (fun a => t1.shape.getD a 0) =
        (idxList t2 (labCommon t1 t2)).map (fun a => t2.shape.getD a 0) then
      match (NPTensor.ofArray
          ((freePos t1.shape.length (idxList t1 (labCommon t1 t2))).map
              (fun a => t1.shape.getD a 0) ++
            (freePos t2.shape.length (idxList t2 (labCommon t1 t2))).map
              (fun a => t2.shape.getD a 0))
          (tensordotElem t1 t2 (idxList t1 (labCommon t1 t2))
            (idxList t2 (labCommon t1 t2)))).setLabel (labFinal t1 t2) with
      | none => none
      | some npt1 =>
          some { npt1 with ibn := t1.label.length - (labCommon t1 t2).length }
    else none
  else
    match (NPTensor.ofArray (t1.shape ++ t2.shape)
        (fun I => t1.elem (I.take t1.shape.length) *
          t2.elem (I.drop t1.shape.length))).setLabel (labFinal t1 t2) with
    | none => none
    | some npt1 => npt1.permute (labOt t1 t2) ((t1.ibn : Int) + (t2.ibn : Int))

/-- Well-formedness of an `NPTensor` as produced by the shim's constructors:
the label tuple and the numpy shape both have one entry per bond, the labels
are distinct, and the IN/OUT split is within range. -/
def NPTensor.Wf (t : NPTensor) : Prop :=
  t.label.length = t.bn ∧ t.shape.length = t.bn ∧ t.label.Nodup ∧ t.ibn ≤ t.bn

instance (t : NPTensor) : Decidable t.Wf := by
  unfold NPTensor.Wf; infer_instance

/-! ### Facts about `NPTensor.permute` -/

theorem nodup_of_toFinset_eq {l l2 : List Int} (h : l.toFinset = l2.toFinset)
    (hlen : l.length = l2.length) (hnd : l2.Nodup) : l.Nodup := by
  have h1 : l.dedup.length = l.length := by
    rw [← List.card_toFinset l, h, List.toFinset_card_of_nodup hnd, hlen]
  have h2 : l.dedup = l := (List.dedup_sublist l).eq_of_length h1
  exact h2 ▸ List.nodup_dedup l

theorem axesOf_getD (t : NPTensor) (label : List Int) {i : Nat}
    (hi : i < t.bn) :
    (t.axesOf label).getD i 0 = dictIdx t.label (label.getD i 0) := by
  unfold NPTensor.axesOf
  have hr : (List.range t.bn).getD i 0 = i := by
    rw [List.getD_eq_getElem _ 0 (by simpa using hi)]
    exact List.getElem_range i _
  rw [getD_map_of_lt _ _ i 0 0 (by simpa using hi), hr]

/-- Under the `permute` assertion the axis list `shape_new` is a valid numpy
permutation of the axes, and reads back the position of each new label in
the old label tuple. -/
theorem axesOf_isPerm (t : NPTensor) (label : List Int)
    (hl : t.label.length = t.bn) (hnd : t.label.Nodup)
    (hlen : label.length = t.label.length)
    (hset : label.toFinset = t.label.toFinset) :
    IsAxesPerm (t.axesOf label) t.bn ∧
      ∀ i, i < t.bn →
        (t.axesOf label).getD i 0 = List.indexOf (label.getD i 0) t.label := by
  have hmem : ∀ i, i < t.bn → label.getD i 0 ∈ t.label := by
    intro i hi
    have : label.getD i 0 ∈ label := by
      rw [List.getD_eq_getElem label 0 (by omega)]
      exact List.getElem_mem _
    exact List.mem_toFinset.mp (hset ▸ List.mem_toFinset.mpr this)
  have hentry : ∀ i, i < t.bn →
      (t.axesOf label).getD i 0 = List.indexOf (label.getD i 0) t.label := by
    intro i hi
    rw [axesOf_getD t label hi, dictIdx_eq_indexOf t.label hnd _ (hmem i hi)]
  have hndl : label.Nodup := nodup_of_toFinset_eq hset hlen hnd
  refine ⟨⟨by simp [NPTensor.axesOf], ?_, ?_⟩, hentry⟩
  · rw [List.nodup_iff_injective_get]
    rintro ⟨i, hilen⟩ ⟨j, hjlen⟩ hij
    have hi : i < t.bn := by simpa [NPTensor.axesOf] using hilen
    have hj : j < t.bn := by simpa [NPTensor.axesOf] using hjlen
    have e1 : (t.axesOf label).get ⟨i, hilen⟩ = (t.axesOf label).getD i 0 :=
      (List.getD_eq_getElem _ 0 hilen).symm
    have e2 : (t.axesOf label).get ⟨j, hjlen⟩ = (t.axesOf label).getD j 0 :=
      (List.getD_eq_getElem _ 0 hjlen).symm
    rw [e1, e2, hentry i hi, hentry j hj] at hij
    have hlab : label.getD i 0 = label.getD j 0 := by
      have a1 : t.label.getD (List.indexOf (label.getD i 0) t.label) 0 =
          label.getD i 0 := by
        have hm := hmem i hi
        have hlt := List.indexOf_lt_length.mpr hm
        rw [List.getD_eq_getElem t.label 0 hlt]
        exact List.getElem_indexOf hlt
      have a2 : t.label.getD (List.indexOf (label.getD j 0) t.label) 0 =
          label.getD j 0 := by
        have hm := hmem j hj
        have hlt := List.indexOf_lt_length.mpr hm
        rw [List.getD_eq_getElem t.label 0 hlt]
        exact List.getElem_indexOf hlt
      rw [← a1, ← a2, hij]
    have hilab : i < label.length := by omega
    have hjlab : j < label.length := by omega
    rw [List.getD_eq_getElem label 0 hilab, List.getD_eq_getElem label 0 hjlab]
      at hlab
    exact Fin.ext (hndl.getElem_inj_iff.mp hlab)
  · intro a ha
    obtain ⟨i, hia, hae⟩ := List.getElem_of_mem ha
    have hi : i < t.bn := by simpa [NPTensor.axesOf] using hia
    have : (t.axesOf label).getD i 0 = a := by
      rw [List.getD_eq_getElem _ 0 hia]; exact hae
    rw [← this, hentry i hi, ← hl]
    exact List.indexOf_lt_length.mpr (hmem i hi)

theorem transposeIdx_inverse {axes1 axes2 : List Nat} {n : Nat}
    (h1 : IsAxesPerm axes1 n) (h2 : IsAxesPerm axes2 n)
    (hinv : ∀ m, m < n → axes1.getD (axes2.getD m 0) 0 = m)
    (I : List Nat) (hI : I.length = n) :
    transposeIdx axes1 n (transposeIdx axes2 n I) = I := by
  have hrel : ∀ m, m < n → List.indexOf m axes1 = axes2.getD m 0 := by
    intro m hm
    have h3 := h1.indexOf_getD (h2.getD_lt hm)
    rw [hinv m hm] at h3
    exact h3
  apply List.ext_getElem
  · simp [transposeIdx, hI]
  · intro m hm1 hm2
    have hm : m < n := by simpa [transposeIdx] using hm1
    have e1 : (transposeIdx axes1 n (transposeIdx axes2 n I)).getD m 0 =
        (transposeIdx axes1 n (transposeIdx axes2 n I))[m] :=
      List.getD_eq_getElem _ 0 hm1
    rw [← e1, transposeIdx_getD _ hm, hrel m hm,
      transposeIdx_getD _ (h2.getD_lt hm), h2.indexOf_getD hm,
      List.getD_eq_getElem I 0 hm2]

/-- Unfolded success form of `NPTensor.permute` under its assertion. -/
theorem permute_eq_some (t : NPTensor) (label : List Int) (ibn : Int)
    (hl : t.label.length = t.bn) (hs : t.shape.length = t.bn)
    (hnd : t.label.Nodup) (hlen : label.length = t.label.length)
    (hset : label.toFinset = t.label.toFinset) :
    t.permute label ibn = some
      { bn := t.bn
        ibn := if 0 ≤ ibn then ibn.toNat else t.ibn
        label := label
        shape := (t.axesOf label).map (fun a => t.shape.getD a 0)
        elem := fun I => t.elem (transposeIdx (t.axesOf label) t.shape.length I) } := by
  obtain ⟨hperm, -⟩ := axesOf_isPerm t label hl hnd hlen hset
  have hsl : t.shape.length = t.bn := hs
  have hperm2 : IsAxesPerm (t.axesOf label) t.shape.length := hsl ▸ hperm
  unfold NPTensor.permute
  rw [if_pos ⟨hlen, hset⟩]
  unfold NPTensor.transposeNP
  rw [if_pos hperm2]
  unfold NPTensor.setLabel
  have hshape : ((t.axesOf label).map (fun a => t.shape.getD a 0)).length =
      label.length := by
    simp [NPTensor.axesOf, hlen, hl]
  simp [hshape, NPTensor.axesOf, hlen, hl]

/-- The inverse relation between the axis lists of a permutation and of the
permutation that restores the original labels. -/
theorem axesOf_inverse (t : NPTensor) (π : List Int) (t1 : NPTensor)
    (hl : t.label.length = t.bn) (hnd : t.label.Nodup)
    (hlen : π.length = t.label.length) (hset : π.toFinset = t.label.toFinset)
    (hlab1 : t1.label = π) (hbn1 : t1.bn = t.bn) :
    ∀ m, m < t.bn →
      (t.axesOf π).getD ((t1.axesOf t.label).getD m 0) 0 = m := by
  obtain ⟨hperm1, hent1⟩ := axesOf_isPerm t π hl hnd hlen hset
  have hndπ : π.Nodup := nodup_of_toFinset_eq hset hlen hnd
  have hl1 : t1.label.length = t1.bn := by rw [hlab1, hbn1]; omega
  have hlen1 : t.label.length = t1.label.length := by rw [hlab1]; omega
  have hset1 : t.label.toFinset = t1.label.toFinset := by rw [hlab1, hset]
  obtain ⟨hperm2, hent2⟩ := axesOf_isPerm t1 t.label hl1 (hlab1 ▸ hndπ) hlen1 hset1
  intro m hm
  have hm1 : m < t1.bn := by omega
  have hmem : t.label.getD m 0 ∈ π := by
    have h1 : t.label.getD m 0 ∈ t.label := by
      rw [List.getD_eq_getElem t.label 0 (by omega)]
      exact List.getElem_mem _
    exact List.mem_toFinset.mp (hset ▸ List.mem_toFinset.mpr h1)
  have hk : List.indexOf (t.label.getD m 0) π < π.length :=
    List.indexOf_lt_length.mpr hmem
  have hkbn : List.indexOf (t.label.getD m 0) π < t.bn := by omega
  have hπk : π.getD (List.indexOf (t.label.getD m 0) π) 0 = t.label.getD m 0 := by
    rw [List.getD_eq_getElem π 0 hk]
    exact List.getElem_indexOf hk
  rw [hent2 m hm1, hlab1, hent1 _ hkbn, hπk,
    List.getD_eq_getElem t.label 0 (by omega : m < t.label.length)]
  exact List.indexOf_getElem hnd m (by omega)

/-- **C1.**  For every well-formed `NPTensor` `A` and every permutation `π`
of its labels (with any new IN/OUT split `ι`), `A.permute(π, ι)` succeeds,
permuting the result back by the original labels with the original IN/OUT
split succeeds, and the final tensor is bit-identical to `A`: all metadata
fields coincide and every element (at every multi-index of the right rank)
coincides. -/
theorem permute_permute_inv (t : NPTensor) (π : List Int) (ι : Int)
    (hl : t.label.length = t.bn) (hs : t.shape.length = t.bn)
    (hnd : t.label.Nodup) (hlen : π.length = t.label.length)
    (hset : π.toFinset = t.label.toFinset) :
    ∃ t1 t2, t.permute π ι = some t1 ∧
      t1.permute t.label (t.ibn : Int) = some t2 ∧
      t2.bn = t.bn ∧ t2.ibn = t.ibn ∧ t2.label = t.label ∧
      t2.shape = t.shape ∧ ∀ I, I.length = t.bn → t2.elem I = t.elem I := by
  have hndπ : π.Nodup := nodup_of_toFinset_eq hset hlen hnd
  obtain ⟨hperm1, hent1⟩ := axesOf_isPerm t π hl hnd hlen hset
  set t1 : NPTensor :=
    { bn := t.bn
      ibn := if 0 ≤ ι then ι.toNat else t.ibn
      label := π
      shape := (t.axesOf π).map (fun a => t.shape.getD a 0)
      elem := fun I => t.elem (transposeIdx (t.axesOf π) t.shape.length I) }
    with ht1
  have h1 : t.permute π ι = some t1 := permute_eq_some t π ι hl hs hnd hlen hset
  have hl1 : t1.label.length = t1.bn := by
    show π.length = t.bn
    omega
  have hs1 : t1.shape.length = t1.bn := by
    show ((t.axesOf π).map (fun a => t.shape.getD a 0)).length = t.bn
    simp [NPTensor.axesOf]
  have hnd1 : t1.label.Nodup := hndπ
  have hlen1 : t.label.length = t1.label.length := by
    show t.label.length = π.length
    omega
  have hset1 : t.label.toFinset = t1.label.toFinset := by
    show t.label.toFinset = π.toFinset
    exact hset.symm
  obtain ⟨hperm2, hent2⟩ := axesOf_isPerm t1 t.label hl1 hnd1 hlen1 hset1
  have h2 := permute_eq_some t1 t.label (t.ibn : Int) hl1 hs1 hnd1 hlen1 hset1
  have hinv := axesOf_inverse t π t1 hl hnd hlen hset rfl rfl
  refine ⟨t1, _, h1, h2, rfl, by simp, rfl, ?_, ?_⟩
  · apply List.ext_getElem
    · simp only [List.length_map, NPTensor.axesOf, List.length_range]
      show t1.bn = t.shape.length
      exact hs.symm
    · intro i hi1 hi2
      have hi_ax : i < (t1.axesOf t.label).length := by simpa using hi1
      have hibn : i < t.bn := by rw [← hs]; exact hi2
      have haxi : (t1.axesOf t.label).getD i 0 = (t1.axesOf t.label)[i] :=
        List.getD_eq_getElem _ 0 hi_ax
      have halt : (t1.axesOf t.label).getD i 0 < t.bn :=
        hperm2.getD_lt (show i < t1.bn from hibn)
      have ha1len : (t1.axesOf t.label).getD i 0 < (t.axesOf π).length := by
        simpa [NPTensor.axesOf] using halt
      rw [List.getElem_map]
      calc t1.shape.getD ((t1.axesOf t.label)[i]) 0
          = t1.shape.getD ((t1.axesOf t.label).getD i 0) 0 := by rw [haxi]
        _ = t.shape.getD ((t.axesOf π).getD ((t1.axesOf t.label).getD i 0) 0) 0 := by
            show ((t.axesOf π).map (fun a => t.shape.getD a 0)).getD _ 0 = _
            exact getD_map_of_lt _ _ _ 0 0 ha1len
        _ = t.shape.getD i 0 := by rw [hinv i hibn]
        _ = t.shape[i] := List.getD_eq_getElem t.shape 0 hi2
  · intro I hI
    show t1.elem (transposeIdx (t1.axesOf t.label) t1.shape.length I) = t.elem I
    have hslen1 : t1.shape.length = t.bn := hs1
    rw [hslen1]
    show t.elem (transposeIdx (t.axesOf π) t.shape.length
      (transposeIdx (t1.axesOf t.label) t.bn I)) = t.elem I
    rw [hs]
    congr 1
    exact transposeIdx_inverse hperm1 hperm2 hinv I hI

/-- A concrete 2-bond tensor used to witness the theorems about the shim. -/
def egT1 : NPTensor :=
  { bn := 2, ibn := 1, label := [10, 20], shape := [2, 3]
    elem := fun I => (I.getD 0 0 : ℚ) + 10 * (I.getD 1 0 : ℚ) }

/-- Witness for C1 at a concrete tensor and permutation. -/
theorem permute_permute_inv_witness :
    egT1.label.Nodup ∧
      (∃ t1 t2, egT1.permute [20, 10] 0 = some t1 ∧
        t1.permute egT1.label (egT1.ibn : Int) = some t2 ∧
        t2.bn = egT1.bn ∧ t2.ibn = egT1.ibn ∧ t2.label = egT1.label ∧
        t2.shape = egT1.shape ∧
        ∀ I, I.length = egT1.bn → t2.elem I = egT1.elem I) :=
  ⟨by decide, permute_permute_inv egT1 [20, 10] 0 (by decide) (by decide)
    (by decide) (by decide) (by decide)⟩

/-! ### C6: `setLabel` -/

/-- Counterexample to C6 as stated: `NPTensor.setLabel` (the shim's setLabel,
`nptensor.py.in` lines 36-39) accepts duplicate labels — it succeeds on a
label list that is not pairwise distinct, where the claim requires failure
with a `LabelError`. -/
theorem setLabel_accepts_duplicates :
    (egT1.setLabel [7, 7]).isSome = true ∧ ¬ ([7, 7] : List Int).Nodup :=
  ⟨rfl, by decide⟩

/-- **C6 (amended).**  `NPTensor.setLabel` succeeds iff the number of new
labels equals the tensor's bond count (the length of its numpy shape);
distinctness of the new labels is not checked.  On success only the label
metadata changes: bond counts, shape and all elements are untouched. -/
theorem setLabel_spec (t : NPTensor) (ls : List Int) :
    ((t.setLabel ls).isSome ↔ ls.length = t.shape.length) ∧
      ∀ r, t.setLabel ls = some r →
        r.label = ls ∧ r.bn = t.bn ∧ r.ibn = t.ibn ∧ r.shape = t.shape ∧
          r.elem = t.elem := by
  constructor
  · unfold NPTensor.setLabel
    by_cases h : ls.length = t.shape.length
    · simp [h]
    · simp [h]
  · intro r hr
    unfold NPTensor.setLabel at hr
    by_cases h : ls.length = t.shape.length
    · rw [if_pos h] at hr
      cases Option.some_inj.mp hr
      exact ⟨rfl, rfl, rfl, rfl, rfl⟩
    · rw [if_neg h] at hr
      cases hr

/-- Witness for the amended C6 at a concrete input. -/
theorem setLabel_spec_witness :
    ({ egT1 with label := [7, 8] } : NPTensor).shape = egT1.shape ∧
      ({ egT1 with label := [7, 8] } : NPTensor).label = [7, 8] :=
  have h := (setLabel_spec egT1 [7, 8]).2 { egT1 with label := [7, 8] } rfl
  ⟨h.2.2.2.1, h.1⟩

/-! ### C4: permutation preserves the element count and the Frobenius norm -/

/-- Modelled from the spec: `UniTensor::norm` — "Returns the L² norm of
UniTensor elements" (`UniTensor.h` carries only the declaration; the body is
not among the repository sources).  Over exact rationals we work with the
square of the Frobenius norm, the sum of the squares of all elements; two
tensors have equal norm iff they have equal `normSq`. -/
def normSq (t : NPTensor) : ℚ :=
  ((indexSet t.shape).map (fun I => t.elem I * t.elem I)).sum

/-- Modelled from the spec: `UniTensor::elemNum`, the total number of stored
elements — for a dense trivial-charge tensor, the product of the bond
dimensions. -/
def elemNum (t : NPTensor) : Nat := t.shape.prod

/-- Transposing the axes of a shape permutes the set of valid multi-indices:
mapping the index motion of `numpy.transpose` over the multi-indices of the
permuted shape is a permutation of the multi-indices of the original shape. -/
theorem indexSet_transpose_perm (shape : List Nat) (axes : List Nat)
    (h : IsAxesPerm axes shape.length) :
    ((indexSet (axes.map (fun a => shape.getD a 0))).map
      (transposeIdx axes shape.length)).Perm (indexSet shape) := by
  set n := shape.length with hn
  set S1 := axes.map (fun a => shape.getD a 0) with hS1
  have haxlen : axes.length = n := h.1
  have hS1len : S1.length = n := by simp [hS1, h.1]
  have hmem1 : ∀ I, I ∈ indexSet S1 → transposeIdx axes n I ∈ indexSet shape := by
    intro I hI
    obtain ⟨hIlen, hIbd⟩ := (mem_indexSet_iff S1 I).mp hI
    refine (mem_indexSet_iff shape _).mpr ⟨by simp [transposeIdx], ?_⟩
    intro m hm
    rw [transposeIdx_getD I hm]
    have hidx : List.indexOf m axes < n := h.indexOf_lt hm
    have hbd := hIbd (List.indexOf m axes) (by omega)
    have hgetS1 : S1.getD (List.indexOf m axes) 0 =
        shape.getD (axes.getD (List.indexOf m axes) 0) 0 :=
      getD_map_of_lt _ axes _ 0 0 (by omega)
    rw [hgetS1, h.getD_indexOf hm] at hbd
    exact hbd
  have hmem2 : ∀ J, J ∈ indexSet shape → gatherIdx axes J ∈ indexSet S1 := by
    intro J hJ
    obtain ⟨hJlen, hJbd⟩ := (mem_indexSet_iff shape J).mp hJ
    refine (mem_indexSet_iff S1 _).mpr ⟨by simp [gatherIdx, hS1], ?_⟩
    intro k hk
    have hkax : k < axes.length := by omega
    rw [gatherIdx_getD J hkax]
    have hgetS1 : S1.getD k 0 = shape.getD (axes.getD k 0) 0 :=
      getD_map_of_lt _ axes _ 0 0 hkax
    rw [hgetS1]
    exact hJbd _ (h.getD_lt (by omega))
  refine List.perm_of_nodup_nodup_toFinset_eq ?_ (indexSet_nodup shape) ?_
  · refine List.Nodup.map_on ?_ (indexSet_nodup S1)
    intro x hx y hy hxy
    have hxlen : x.length = n := by
      have := (mem_indexSet_iff S1 x).mp hx
      omega
    have hylen : y.length = n := by
      have := (mem_indexSet_iff S1 y).mp hy
      omega
    calc x = gatherIdx axes (transposeIdx axes n x) :=
          (gatherIdx_transposeIdx h x hxlen).symm
      _ = gatherIdx axes (transposeIdx axes n y) := by rw [hxy]
      _ = y := gatherIdx_transposeIdx h y hylen
  · ext x
    simp only [List.mem_toFinset, List.mem_map]
    constructor
    · rintro ⟨I, hI, rfl⟩
      exact hmem1 I hI
    · intro hx
      refine ⟨gatherIdx axes x, hmem2 x hx, ?_⟩
      have hxlen : x.length = n := by
        have := (mem_indexSet_iff shape x).mp hx
        omega
      exact transposeIdx_gatherIdx h x hxlen

/-- **C4.**  For every well-formed `NPTensor` `A` and every permutation `π`
of its labels (with any new IN/OUT split `ι`), `A.permute(π, ι)` succeeds
and preserves both the total element count and the Frobenius norm (stated
via its square, the sum of squared elements). -/
theorem permute_preserves_norm (t : NPTensor) (π : List Int) (ι : Int)
    (hl : t.label.length = t.bn) (hs : t.shape.length = t.bn)
    (hnd : t.label.Nodup) (hlen : π.length = t.label.length)
    (hset : π.toFinset = t.label.toFinset) :
    ∃ t1, t.permute π ι = some t1 ∧
      elemNum t1 = elemNum t ∧ normSq t1 = normSq t := by
  obtain ⟨hperm, -⟩ := axesOf_isPerm t π hl hnd hlen hset
  have h1 := permute_eq_some t π ι hl hs hnd hlen hset
  refine ⟨_, h1, ?_, ?_⟩
  · show ((t.axesOf π).map (fun a => t.shape.getD a 0)).prod = t.shape.prod
    have hp : (t.axesOf π).Perm (List.range t.bn) := hperm.perm_range
    calc ((t.axesOf π).map (fun a => t.shape.getD a 0)).prod
        = ((List.range t.bn).map (fun a => t.shape.getD a 0)).prod :=
          (hp.map _).prod_eq
      _ = t.shape.prod := by rw [map_range_getD t.shape t.bn 0 hs]
  · have hperm2 : IsAxesPerm (t.axesOf π) t.shape.length := by
      rw [hs]; exact hperm
    have hpm := indexSet_transpose_perm t.shape (t.axesOf π) hperm2
    show ((indexSet ((t.axesOf π).map (fun a => t.shape.getD a 0))).map
        (fun I => t.elem (transposeIdx (t.axesOf π) t.shape.length I) *
          t.elem (transposeIdx (t.axesOf π) t.shape.length I))).sum = normSq t
    unfold normSq
    calc ((indexSet ((t.axesOf π).map (fun a => t.shape.getD a 0))).map
        (fun I => t.elem (transposeIdx (t.axesOf π) t.shape.length I) *
          t.elem (transposeIdx (t.axesOf π) t.shape.length I))).sum
        = (((indexSet ((t.axesOf π).map (fun a => t.shape.getD a 0))).map
            (transposeIdx (t.axesOf π) t.shape.length)).map
            (fun J => t.elem J * t.elem J)).sum := by
            rw [List.map_map]
            rfl
      _ = ((indexSet t.shape).map (fun J => t.elem J * t.elem J)).sum :=
          (hpm.map _).sum_eq

/-- Witness for C4 at a concrete tensor and permutation. -/
theorem permute_preserves_norm_witness :
    egT1.label.Nodup ∧
      (∃ t1, egT1.permute [20, 10] (-1) = some t1 ∧
        elemNum t1 = elemNum egT1 ∧ normSq t1 = normSq egT1) :=
  ⟨by decide, permute_preserves_norm egT1 [20, 10] (-1) (by decide) (by decide)
    (by decide) (by decide) (by decide)⟩

/-! ### C2 / C8: the symmetric block layout -/

/-- Modelled from the spec: a `Qnum` is an abelian charge with equality,
total order, addition and negation — modelled as `Int`.  The charge of a
multi-index over a list of bonds (each bond its expanded list of state
charges, one entry per state): the sum of the charges selected on each
bond (spec §3, "for each row multi-index compute q_row = Σ charges"). -/
def chargeOf (bonds : List (List Int)) (I : List Nat) : Int :=
  (List.zipWith (fun b i => b.getD i 0) bonds I).sum

/-- Modelled from the spec: `UniTensor::grouping` (only declared in
`UniTensor.h`).  The row multi-indices of charge `q` over the given bonds,
in the canonical enumeration order; they are the rows of the stored block
`blocks[q]` (columns arise from the same function on the outgoing bonds).
The layout bijection sends block position `(r, c)` of block `q` to the
multi-index pair `((blockRows inB q)[r], (blockRows outB q)[c])`. -/
def blockRows (bonds : List (List Int)) (q : Int) : List (List Nat) :=
  (indexSet (bonds.map List.length)).filter (fun I => chargeOf bonds I = q)

/-- Modelled from the spec: the block charges of a symmetric tensor — a
block for charge `q` exists iff at least one incoming combination and one
outgoing combination summing to `q` coexist (spec §3).  `blockQnum` returns
them in ascending order; the statements below do not depend on the order,
so first-occurrence order is used. -/
def blockQnums (inB outB : List (List Int)) : List Int :=
  (((indexSet (inB.map List.length)).map (chargeOf inB)).dedup).filter
    (fun q => q ∈ (indexSet (outB.map List.length)).map (chargeOf outB))

/-- **C2.**  For every symmetric tensor (given by its incoming and outgoing
bonds — after any operation, since every operation rebuilds the layout from
the bonds of its result by `grouping`) and every stored block `q`, every
`(row, col)` position of the block corresponds through the layout bijection
to a full multi-index whose incoming-charge sum equals its outgoing-charge
sum (both equal the block charge `q`); and conversely, every valid
multi-index pair with conserved charge `q` appears among the block's
positions. -/
theorem block_layout_conserved (inB outB : List (List Int)) (q : Int)
    (r c : Nat) (hr : r < (blockRows inB q).length)
    (hc : c < (blockRows outB q).length) :
    chargeOf inB ((blockRows inB q).getD r []) =
        chargeOf outB ((blockRows outB q).getD c []) ∧
      chargeOf inB ((blockRows inB q).getD r []) = q ∧
      ((blockRows inB q).getD r []) ∈ indexSet (inB.map List.length) ∧
      ((blockRows outB q).getD c []) ∈ indexSet (outB.map List.length) ∧
      (∀ I, I ∈ indexSet (inB.map List.length) → chargeOf inB I = q →
        I ∈ blockRows inB q) := by
  have hrmem : (blockRows inB q).getD r [] ∈ blockRows inB q := by
    rw [List.getD_eq_getElem _ [] hr]
    exact List.getElem_mem hr
  have hcmem : (blockRows outB q).getD c [] ∈ blockRows outB q := by
    rw [List.getD_eq_getElem _ [] hc]
    exact List.getElem_mem hc
  obtain ⟨hrset, hrq⟩ := List.mem_filter.mp hrmem
  obtain ⟨hcset, hcq⟩ := List.mem_filter.mp hcmem
  have hrq2 : chargeOf inB ((blockRows inB q).getD r []) = q := by
    simpa using hrq
  have hcq2 : chargeOf outB ((blockRows outB q).getD c []) = q := by
    simpa using hcq
  refine ⟨by rw [hrq2, hcq2], hrq2, hrset, hcset, ?_⟩
  intro I hI hq
  exact List.mem_filter.mpr ⟨hI, by simpa using hq⟩

/-- Witness for C2: a Z2-like rank-4 tensor, two incoming and two outgoing
bonds with states `{+1, -1}`; block `q = 0` is 2 × 2. -/
theorem block_layout_conserved_witness :
    1 < (blockRows [[1, -1], [1, -1]] 0).length ∧
      0 < (blockRows [[1, -1], [1, -1]] 0).length ∧
      (chargeOf [[1, -1], [1, -1]] ((blockRows [[1, -1], [1, -1]] 0).getD 1 []) =
          chargeOf [[1, -1], [1, -1]] ((blockRows [[1, -1], [1, -1]] 0).getD 0 []) ∧
        chargeOf [[1, -1], [1, -1]] ((blockRows [[1, -1], [1, -1]] 0).getD 1 []) = 0 ∧
        ((blockRows [[1, -1], [1, -1]] 0).getD 1 []) ∈
          indexSet ([[1, -1], [1, -1]].map List.length) ∧
        ((blockRows [[1, -1], [1, -1]] 0).getD 0 []) ∈
          indexSet ([[1, -1], [1, -1]].map List.length) ∧
        (∀ I, I ∈ indexSet ([[1, -1], [1, -1]].map List.length) →
          chargeOf [[1, -1], [1, -1]] I = 0 →
            I ∈ blockRows [[1, -1], [1, -1]] 0)) :=
  ⟨by decide, by decide,
    block_layout_conserved [[1, -1], [1, -1]] [[1, -1], [1, -1]] 0 1 0
      (by decide) (by decide)⟩

/-- Modelled from the spec: the face of a `UniTensor` that the shim
constructor inspects — incoming and outgoing bonds as expanded charge
lists, the bond labels, and the raw elements (`bondNum`, `inBondNum`,
`bond().dim()`, `label()`, `exportElem` of `nptensor.py.in`). -/
structure UniTensor where
  inBonds : List (List Int)
  outBonds : List (List Int)
  labels : List Int
  elem : List Nat → ℚ

/-- `UniTensor::blockQnum` of the model: the stored block charges. -/
def UniTensor.blockQnum (u : UniTensor) : List Int :=
  blockQnums u.inBonds u.outBonds

/-- `NPTensor.__new__` on a `UniTensor` (`nptensor.py.in` lines 7-17):
reads `tensor.blockQnum()`, asserts
`len(qns) == 1 and qns[0] == Qnum(0)` (the assertion propagates — it is not
an `AttributeError`, the only exception caught), then exports the bond
dimensions as the numpy shape together with labels and elements. -/
def NPTensor.ofUniTensor (u : UniTensor) : Option NPTensor :=
  if u.blockQnum.length = 1 ∧ u.blockQnum.getD 0 1 = 0 then
    some { bn := u.inBonds.length + u.outBonds.length
           ibn := u.inBonds.length
           label := u.labels
           shape := (u.inBonds ++ u.outBonds).map List.length
           elem := u.elem }
  else none

/-- **C8.**  The `NPTensor` constructor succeeds on a `UniTensor` exactly
when the tensor has exactly one stored block whose quantum number is
`Qnum(0)`; on any tensor with non-trivial quantum numbers the assertion
fires and construction fails, so the numpy fast path never silently
processes a symmetric tensor. -/
theorem ofUniTensor_isSome_iff (u : UniTensor) :
    (NPTensor.ofUniTensor u).isSome ↔ u.blockQnum = [0] := by
  unfold NPTensor.ofUniTensor
  by_cases h : u.blockQnum.length = 1 ∧ u.blockQnum.getD 0 1 = 0
  · rw [if_pos h]
    simp only [Option.isSome_some, true_iff]
    obtain ⟨h1, h2⟩ := h
    match hbq : u.blockQnum, h1 with
    | [x], _ =>
        rw [hbq] at h2
        simpa using h2
  · rw [if_neg h]
    simp only [Option.isSome_none, Bool.false_eq_true, false_iff]
    intro hbq
    exact h (by rw [hbq]; exact ⟨rfl, rfl⟩)

/-! ### C5: the contraction-tree greedy step (`Node_t::metric`) -/

/-- Modelled from the spec (§4.4; `Node_t` in `Network.h` of SyTensorLib is
only declared): a contraction-tree root summarised by its bonds, each a
(label, dimension) pair.  A leaf's `elemNum` is the product of its bond
dimensions. -/
structure Node_t where
  bonds : List (Int × Nat)

instance : Inhabited Node_t := ⟨⟨[]⟩⟩

/-- The labels of a node's bonds. -/
def Node_t.labels (nd : Node_t) : List Int := nd.bonds.map Prod.fst

/-- `elemNum`: the product of the bond dimensions. -/
def Node_t.elemNum (nd : Node_t) : Nat := (nd.bonds.map Prod.snd).prod

/-- Modelled from the spec: `Node_t::contract` — the merged node keeps the
symmetric difference of the two label sets (shared labels are contracted
away). -/
def Node_t.merge (a b : Node_t) : Node_t :=
  ⟨a.bonds.filter (fun p => p.1 ∉ b.labels) ++
    b.bonds.filter (fun p => p.1 ∉ a.labels)⟩

/-- Modelled from the spec (§4.4): `Node_t::metric` —
`point = elemNum(merged) - max(elemNum(self), elemNum(other))`, the extra
intermediate storage; lower is better.  (The source declares a `float`
return; exact integers represent the same quantity.) -/
def Node_t.metric (a b : Node_t) : Int :=
  ((a.merge b).elemNum : Int) - max (a.elemNum : Int) (b.elemNum : Int)

/-- Two roots share at least one label. -/
def Node_t.shares (a b : Node_t) : Bool :=
  a.labels.any (fun l => l ∈ b.labels)

/-- All candidate pairs `(i, j)`, `i < j < n`, in the scan order of the
greedy search: `i` ascending, then `j` ascending. -/
def allPairs (n : Nat) : List (Nat × Nat) :=
  (List.range n).flatMap
    (fun i => ((List.range n).filter (fun j => i < j)).map (fun j => (i, j)))

/-- The greedy comparison key of a candidate pair: the metric, then the
combined `elemNum` for tie-breaking. -/
def pairKey (roots : List Node_t) (p : Nat × Nat) : Int × Nat :=
  ((roots.getD p.1 default).metric (roots.getD p.2 default),
    (roots.getD p.1 default).elemNum + (roots.getD p.2 default).elemNum)

/-- Strict lexicographic order on comparison keys. -/
def lexLt (x y : Int × Nat) : Prop :=
  x.1 < y.1 ∨ (x.1 = y.1 ∧ x.2 < y.2)

instance (x y : Int × Nat) : Decidable (lexLt x y) := by
  unfold lexLt; infer_instance

/-- Strict scan order on pairs of leaf indices (earlier pair first). -/
def scanLt (p q : Nat × Nat) : Prop :=
  p.1 < q.1 ∨ (p.1 = q.1 ∧ p.2 < q.2)

/-- Reflexive scan order on pairs of leaf indices. -/
def scanLe (p q : Nat × Nat) : Prop :=
  p.1 < q.1 ∨ (p.1 = q.1 ∧ p.2 ≤ q.2)

theorem lexLt_trans {x y z : Int × Nat} (h1 : lexLt x y) (h2 : lexLt y z) :
    lexLt x z := by
  unfold lexLt at h1 h2 ⊢
  rcases h1 with h1 | ⟨h1a, h1b⟩ <;> rcases h2 with h2 | ⟨h2a, h2b⟩ <;> omega

theorem lexLt_total {x y : Int × Nat} (h : ¬ lexLt x y) : lexLt y x ∨ x = y := by
  unfold lexLt at h ⊢
  by_cases h1 : y.1 < x.1
  · exact Or.inl (Or.inl h1)
  · by_cases h2 : y.2 < x.2
    · refine Or.inl (Or.inr ⟨?_, h2⟩)
      omega
    · refine Or.inr (Prod.ext ?_ ?_) <;> omega

/-- One step of the greedy scan: keep the running best unless the new pair
is strictly better on (metric, combined elemNum). -/
def chooseStep (roots : List Node_t) (best : Option (Nat × Nat))
    (p : Nat × Nat) : Option (Nat × Nat) :=
  match best with
  | none => some p
  | some b => if lexLt (pairKey roots p) (pairKey roots b) then some p else some b

/-- Modelled from the spec (§4.5 step 3; `Network_t::construct` is only
declared in `Network.h`): the greedy step scans all pairs of current
tree-roots that share at least one label, in scan order, and keeps the pair
that minimises `Node_t::metric`, breaking ties by lower combined `elemNum`
and then by the earlier position in the scan (earlier leaf index). -/
def selectPair (roots : List Node_t) : Option (Nat × Nat) :=
  ((allPairs roots.length).filter (fun p =>
      (roots.getD p.1 default).shares (roots.getD p.2 default))).foldl
    (chooseStep roots) none

theorem allPairs_mem_iff (n : Nat) (p : Nat × Nat) :
    p ∈ allPairs n ↔ p.1 < p.2 ∧ p.2 < n := by
  unfold allPairs
  simp only [List.mem_flatMap, List.mem_map, List.mem_filter, List.mem_range,
    decide_eq_true_eq]
  constructor
  · rintro ⟨i, hi, j, ⟨hj, hij⟩, rfl⟩
    exact ⟨hij, hj⟩
  · rintro ⟨h1, h2⟩
    exact ⟨p.1, by omega, p.2, ⟨h2, h1⟩, rfl⟩

theorem allPairs_pairwise (n : Nat) : (allPairs n).Pairwise scanLt := by
  unfold allPairs
  rw [List.pairwise_flatMap]
  constructor
  · intro i _
    rw [List.pairwise_map]
    have h1 : ((List.range n).filter (fun j => i < j)).Pairwise (· < ·) :=
      List.Pairwise.sublist (List.filter_sublist _) (List.pairwise_lt_range n)
    refine h1.imp ?_
    intro a b hab
    exact Or.inr ⟨rfl, hab⟩
  · refine (List.pairwise_lt_range n).imp ?_
    intro i1 i2 h12 x hx y hy
    obtain ⟨j1, -, rfl⟩ := List.mem_map.mp hx
    obtain ⟨j2, -, rfl⟩ := List.mem_map.mp hy
    exact Or.inl h12

/-- Correctness of the greedy fold: starting from a best candidate that
scans earlier than everything left to process, the result is a processed
candidate that no processed candidate strictly beats; on key ties the
result scans no later. -/
theorem chooseStep_foldl_min (roots : List Node_t) :
    ∀ (L : List (Nat × Nat)) (a : Nat × Nat),
      (∀ q ∈ L, scanLt a q) → L.Pairwise scanLt →
      ∃ b, L.foldl (chooseStep roots) (some a) = some b ∧ (b = a ∨ b ∈ L) ∧
        ∀ q, (q = a ∨ q ∈ L) →
          lexLt (pairKey roots b) (pairKey roots q) ∨
            (pairKey roots b = pairKey roots q ∧ scanLe b q) := by
  intro L
  induction L with
  | nil =>
      intro a _ _
      refine ⟨a, rfl, Or.inl rfl, ?_⟩
      rintro q (rfl | hq)
      · exact Or.inr ⟨rfl, Or.inr ⟨rfl, le_refl _⟩⟩
      · cases hq
  | cons p t ih =>
      intro a hscan hpw
      rw [List.foldl_cons]
      by_cases hlt : lexLt (pairKey roots p) (pairKey roots a)
      · have hstep : chooseStep roots (some a) p =
            if lexLt (pairKey roots p) (pairKey roots a) then some p else some a :=
          rfl
        rw [hstep, if_pos hlt]
        obtain ⟨b, hfold, hmem, hbest⟩ :=
          ih p (fun q hq => (List.pairwise_cons.mp hpw).1 q hq)
            (List.pairwise_cons.mp hpw).2
        refine ⟨b, hfold, ?_, ?_⟩
        · rcases hmem with rfl | hmem
          · exact Or.inr (List.mem_cons_self _ _)
          · exact Or.inr (List.mem_cons_of_mem _ hmem)
        · rintro q hq
          rcases hq with rfl | hq
          · rcases hbest p (Or.inl rfl) with h | ⟨heq, -⟩
            · exact Or.inl (lexLt_trans h hlt)
            · exact Or.inl (by rw [heq]; exact hlt)
          · rcases List.mem_cons.mp hq with rfl | hq2
            · exact hbest q (Or.inl rfl)
            · exact hbest q (Or.inr hq2)
      · have hstep : chooseStep roots (some a) p =
            if lexLt (pairKey roots p) (pairKey roots a) then some p else some a :=
          rfl
        rw [hstep, if_neg hlt]
        obtain ⟨b, hfold, hmem, hbest⟩ :=
          ih a (fun q hq => hscan q (List.mem_cons_of_mem _ hq))
            (List.pairwise_cons.mp hpw).2
        refine ⟨b, hfold, ?_, ?_⟩
        · rcases hmem with rfl | hmem
          · exact Or.inl rfl
          · exact Or.inr (List.mem_cons_of_mem _ hmem)
        · rintro q hq
          rcases hq with rfl | hq
          · exact hbest q (Or.inl rfl)
          · rcases List.mem_cons.mp hq with rfl | hq2
            · rcases lexLt_total hlt with hpa | hpa
              · rcases hbest a (Or.inl rfl) with h | ⟨heq, -⟩
                · exact Or.inl (lexLt_trans h hpa)
                · exact Or.inl (by rw [heq]; exact hpa)
              · rcases hbest a (Or.inl rfl) with h | ⟨heq, hle⟩
                · exact Or.inl (by rw [hpa]; exact h)
                · refine Or.inr ⟨heq.trans hpa.symm, ?_⟩
                  have hap : scanLt a q := hscan q (List.mem_cons_self _ _)
                  unfold scanLe at hle ⊢
                  unfold scanLt at hap
                  omega
            · exact hbest q (Or.inr hq2)

/-- **C5.**  At every greedy step of the Network tree construction: whenever
`selectPair` picks the pair `(i, j)` among the current tree-roots, that pair
is a valid pair sharing at least one label, and for every pair sharing a
label it holds that either the chosen pair has a strictly smaller
(metric, combined elemNum) key, or the keys are equal and the chosen pair
occurs no later in the scan (ties broken by the earlier leaf index). -/
theorem selectPair_min (roots : List Node_t) (i j : Nat)
    (hsel : selectPair roots = some (i, j)) :
    i < j ∧ j < roots.length ∧
      (roots.getD i default).shares (roots.getD j default) = true ∧
      ∀ i2 j2, i2 < j2 → j2 < roots.length →
        (roots.getD i2 default).shares (roots.getD j2 default) = true →
        lexLt (pairKey roots (i, j)) (pairKey roots (i2, j2)) ∨
          (pairKey roots (i, j) = pairKey roots (i2, j2) ∧
            scanLe (i, j) (i2, j2)) := by
  unfold selectPair at hsel
  set cand := (allPairs roots.length).filter (fun p =>
      (roots.getD p.1 default).shares (roots.getD p.2 default)) with hcand
  have hpw : cand.Pairwise scanLt :=
    List.Pairwise.sublist (List.filter_sublist _) (allPairs_pairwise _)
  have hmemc : ∀ p, p ∈ cand ↔ (p.1 < p.2 ∧ p.2 < roots.length ∧
      (roots.getD p.1 default).shares (roots.getD p.2 default) = true) := by
    intro p
    rw [hcand, List.mem_filter, allPairs_mem_iff]
    tauto
  cases hc2 : cand with
  | nil =>
      rw [hc2] at hsel
      cases hsel
  | cons p t =>
      rw [hc2] at hsel hpw
      rw [List.foldl_cons] at hsel
      have hstep : chooseStep roots none p = some p := rfl
      rw [hstep] at hsel
      obtain ⟨b, hfold, hmem, hbest⟩ :=
        chooseStep_foldl_min roots t p (List.pairwise_cons.mp hpw).1
          (List.pairwise_cons.mp hpw).2
      rw [hfold] at hsel
      cases Option.some_inj.mp hsel
      have hijmem : (i, j) ∈ cand := by
        rw [hc2]
        rcases hmem with rfl | hmem2
        · exact List.mem_cons_self _ _
        · exact List.mem_cons_of_mem _ hmem2
      obtain ⟨h1, h2, h3⟩ := (hmemc (i, j)).mp hijmem
      refine ⟨h1, h2, h3, ?_⟩
      intro i2 j2 hij2 hj2n hsh2
      have hq : (i2, j2) ∈ cand := (hmemc (i2, j2)).mpr ⟨hij2, hj2n, hsh2⟩
      rw [hc2] at hq
      rcases List.mem_cons.mp hq with heq | hq2
      · exact hbest (i2, j2) (Or.inl heq)
      · exact hbest (i2, j2) (Or.inr hq2)

/-- Witness for C5: three concrete roots; the sharing pair (0, 1) has the
smallest metric. -/
theorem selectPair_min_witness :
    selectPair [⟨[(1, 2), (2, 9)]⟩, ⟨[(2, 9), (3, 5)]⟩, ⟨[(1, 2), (4, 3)]⟩] =
        some (0, 1) ∧
      (0 < 1 ∧ 1 < 3 ∧
        ((([⟨[(1, 2), (2, 9)]⟩, ⟨[(2, 9), (3, 5)]⟩, ⟨[(1, 2), (4, 3)]⟩] :
            List Node_t).getD 0 default).shares
          (([⟨[(1, 2), (2, 9)]⟩, ⟨[(2, 9), (3, 5)]⟩, ⟨[(1, 2), (4, 3)]⟩] :
            List Node_t).getD 1 default) = true) ∧
        ∀ i2 j2, i2 < j2 → j2 < 3 →
          ((([⟨[(1, 2), (2, 9)]⟩, ⟨[(2, 9), (3, 5)]⟩, ⟨[(1, 2), (4, 3)]⟩] :
              List Node_t).getD i2 default).shares
            (([⟨[(1, 2), (2, 9)]⟩, ⟨[(2, 9), (3, 5)]⟩, ⟨[(1, 2), (4, 3)]⟩] :
              List Node_t).getD j2 default) = true) →
          lexLt (pairKey [⟨[(1, 2), (2, 9)]⟩, ⟨[(2, 9), (3, 5)]⟩, ⟨[(1, 2), (4, 3)]⟩] (0, 1))
              (pairKey [⟨[(1, 2), (2, 9)]⟩, ⟨[(2, 9), (3, 5)]⟩, ⟨[(1, 2), (4, 3)]⟩] (i2, j2)) ∨
            (pairKey [⟨[(1, 2), (2, 9)]⟩, ⟨[(2, 9), (3, 5)]⟩, ⟨[(1, 2), (4, 3)]⟩] (0, 1) =
                pairKey [⟨[(1, 2), (2, 9)]⟩, ⟨[(2, 9), (3, 5)]⟩, ⟨[(1, 2), (4, 3)]⟩] (i2, j2) ∧
              scanLe (0, 1) (i2, j2))) :=
  ⟨by decide,
    selectPair_min [⟨[(1, 2), (2, 9)]⟩, ⟨[(2, 9), (3, 5)]⟩, ⟨[(1, 2), (4, 3)]⟩]
      0 1 (by decide)⟩

/-! ### C9: the blocked matrix multiply `myDgemm` -/

/-- The (r, c) entry of the row-major matrix product of an `? × K` matrix
and a `K × ?` matrix — what one `cublasDgemm('N','N', cols, rows, K, 1, subB,
cols, subA, K, 0, subC, cols)` call computes at each position of `subC`. -/
def matmulAt (A B : Nat → Nat → ℚ) (K r c : Nat) : ℚ :=
  ((List.range K).map (fun k => A r k * B k c)).sum

/-- `getRows(M, N, start, span, A, subA, how)`: the row slice of `A`
starting at row `start` (the device copy is transparent). -/
def getRows (A : Nat → Nat → ℚ) (start : Nat) : Nat → Nat → ℚ :=
  fun r k => A (start + r) k

/-- `getCols(M, N, start, span, B, subB, how)`: the column slice of `B`
starting at column `start`. -/
def getCols (B : Nat → Nat → ℚ) (start : Nat) : Nat → Nat → ℚ :=
  fun k c => B k (start + c)

/-- `putBack(startR, startC, spanR, spanC, M, N, subC, C, how)`: writes the
`spanR × spanC` block `sub` into `C` at position `(startR, startC)`,
leaving every other entry of `C` unchanged.  (The contiguous `subC = C +
i*pM*N` path of the source arises only with `q = 1`, where it writes the
same full-width rows.) -/
def putBack (startR startC spanR spanC : Nat) (sub C : Nat → Nat → ℚ) :
    Nat → Nat → ℚ :=
  fun r c =>
    if startR ≤ r ∧ r < startR + spanR ∧ startC ≤ c ∧ c < startC + spanC then
      sub (r - startR) (c - startC)
    else C r c

/-- The body of the double loop of `myDgemm` for block `(i, j) = ij`:
`rows = pM + (M % p) * ((i + 1) / p)`, `cols = qN + (N % q) * ((j + 1) / q)`,
extract the row slice of `A` and the column slice of `B`, multiply, and put
the `rows × cols` product block back at `(i * pM, j * qN)`. -/
def dgemmStep (p q M N K : Nat) (A B : Nat → Nat → ℚ)
    (C : Nat → Nat → ℚ) (ij : Nat × Nat) : Nat → Nat → ℚ :=
  putBack (ij.1 * (M / p)) (ij.2 * (N / q))
    ((M / p) + (M % p) * ((ij.1 + 1) / p))
    ((N / q) + (N % q) * ((ij.2 + 1) / q))
    (fun r c =>
      matmulAt (getRows A (ij.1 * (M / p))) (getCols B (ij.2 * (N / q))) K r c)
    C

/-- `myDgemm(p, q, M, N, K, A, B, C, how)` (the unnamed CUDA source file,
lines 19-65): partition the `M` rows into `p` blocks and the `N` columns
into `q` blocks (`pM = M / p`, `qN = N / q`, the remainders going to the
last block in each direction), and for each block in row-major loop order
multiply the corresponding slices and store the block of `C`. -/
def myDgemm (p q M N K : Nat) (A B C0 : Nat → Nat → ℚ) : Nat → Nat → ℚ :=
  ((List.range p) ×ˢ (List.range q)).foldl (dgemmStep p q M N K A B) C0

/-- The region of `C` written by block `ij`. -/
def blockCovers (p q M N : Nat) (ij : Nat × Nat) (r c : Nat) : Prop :=
  ij.1 * (M / p) ≤ r ∧
    r < ij.1 * (M / p) + ((M / p) + (M % p) * ((ij.1 + 1) / p)) ∧
    ij.2 * (N / q) ≤ c ∧
    c < ij.2 * (N / q) + ((N / q) + (N % q) * ((ij.2 + 1) / q))

instance (p q M N : Nat) (ij : Nat × Nat) (r c : Nat) :
    Decidable (blockCovers p q M N ij r c) := by
  unfold blockCovers; infer_instance

theorem dgemmStep_not_covered {p q M N K : Nat} {A B C : Nat → Nat → ℚ}
    {ij : Nat × Nat} {r c : Nat} (h : ¬ blockCovers p q M N ij r c) :
    dgemmStep p q M N K A B C ij r c = C r c := by
  unfold dgemmStep putBack
  exact if_neg h

theorem dgemmStep_covered {p q M N K : Nat} {A B C : Nat → Nat → ℚ}
    {ij : Nat × Nat} {r c : Nat} (h : blockCovers p q M N ij r c) :
    dgemmStep p q M N K A B C ij r c =
      matmulAt (getRows A (ij.1 * (M / p))) (getCols B (ij.2 * (N / q))) K
        (r - ij.1 * (M / p)) (c - ij.2 * (N / q)) := by
  unfold dgemmStep putBack
  exact if_pos h

theorem foldl_dgemmStep_untouched (p q M N K : Nat) (A B : Nat → Nat → ℚ)
    (r c : Nat) :
    ∀ (L : List (Nat × Nat)) (C : Nat → Nat → ℚ),
      (∀ ij ∈ L, ¬ blockCovers p q M N ij r c) →
      (L.foldl (dgemmStep p q M N K A B) C) r c = C r c := by
  intro L
  induction L with
  | nil => intro C _; rfl
  | cons h t ih =>
      intro C hno
      rw [List.foldl_cons]
      rw [ih _ (fun ij hij => hno ij (List.mem_cons_of_mem _ hij))]
      exact dgemmStep_not_covered (hno h (List.mem_cons_self _ _))

theorem foldl_dgemmStep_unique (p q M N K : Nat) (A B : Nat → Nat → ℚ)
    (r c : Nat) :
    ∀ (L : List (Nat × Nat)) (C : Nat → Nat → ℚ) (ij0 : Nat × Nat),
      L.Nodup → ij0 ∈ L → blockCovers p q M N ij0 r c →
      (∀ ij ∈ L, blockCovers p q M N ij r c → ij = ij0) →
      (L.foldl (dgemmStep p q M N K A B) C) r c =
        matmulAt (getRows A (ij0.1 * (M / p))) (getCols B (ij0.2 * (N / q))) K
          (r - ij0.1 * (M / p)) (c - ij0.2 * (N / q)) := by
  intro L
  induction L with
  | nil =>
      intro C ij0 _ hmem
      cases hmem
  | cons h t ih =>
      intro C ij0 hnd hmem hcov huniq
      rw [List.foldl_cons]
      rcases List.mem_cons.mp hmem with rfl | hmem2
      · have hnot : ∀ ij ∈ t, ¬ blockCovers p q M N ij r c := by
          intro ij hij hcov2
          have := huniq ij (List.mem_cons_of_mem _ hij) hcov2
          subst this
          exact (List.nodup_cons.mp hnd).1 hij
        rw [foldl_dgemmStep_untouched p q M N K A B r c t _ hnot]
        exact dgemmStep_covered hcov
      · exact ih _ ij0 (List.nodup_cons.mp hnd).2 hmem2 hcov
          (fun ij hij hcov2 => huniq ij (List.mem_cons_of_mem _ hij) hcov2)

/-- The one-dimensional covering: for `1 ≤ p ≤ M` and `r < M` there is a
unique block index whose row range contains `r`. -/
theorem rowBlock_exists_unique (p M : Nat) (hp : 1 ≤ p) (hpM : p ≤ M)
    (r : Nat) (hr : r < M) :
    ∃ i, i < p ∧ i * (M / p) ≤ r ∧
      r < i * (M / p) + ((M / p) + (M % p) * ((i + 1) / p)) ∧
      ∀ i2, i2 < p → i2 * (M / p) ≤ r →
        r < i2 * (M / p) + ((M / p) + (M % p) * ((i2 + 1) / p)) → i2 = i := by
  have hp0 : 0 < p := hp
  have hpM1 : 1 ≤ M / p := (Nat.one_le_div_iff hp0).mpr hpM
  have hmod : p * (M / p) + M % p = M := Nat.div_add_mod M p
  have hrowlt : ∀ i1 i2, i1 < i2 → i2 < p →
      r < i1 * (M / p) + ((M / p) + (M % p) * ((i1 + 1) / p)) →
      i2 * (M / p) ≤ r → False := by
    intro i1 i2 h12 h2p hup hlow
    have hne : i1 + 1 < p := by omega
    have hdiv0 : (i1 + 1) / p = 0 := Nat.div_eq_of_lt hne
    rw [hdiv0, Nat.mul_zero, Nat.add_zero] at hup
    have hstep : (i1 + 1) * (M / p) ≤ i2 * (M / p) :=
      Nat.mul_le_mul_right _ (by omega)
    have : r < (i1 + 1) * (M / p) := by
      rw [Nat.succ_mul]
      omega
    omega
  have huniq : ∀ i1 i2, i1 < p → i2 < p →
      i1 * (M / p) ≤ r →
      r < i1 * (M / p) + ((M / p) + (M % p) * ((i1 + 1) / p)) →
      i2 * (M / p) ≤ r →
      r < i2 * (M / p) + ((M / p) + (M % p) * ((i2 + 1) / p)) → i2 = i1 := by
    intro i1 i2 h1p h2p hl1 hu1 hl2 hu2
    rcases Nat.lt_trichotomy i1 i2 with h | h | h
    · exact absurd (hrowlt i1 i2 h h2p hu1 hl2) (fun x => x)
    · exact h.symm
    · exact absurd (hrowlt i2 i1 h h1p hu2 hl1) (fun x => x)
  by_cases hcase : r / (M / p) ≤ p - 1
  · refine ⟨r / (M / p), by omega, ?_, ?_, ?_⟩
    · exact Nat.div_mul_le_self r (M / p)
    · have hmlt : r % (M / p) < M / p := Nat.mod_lt _ (by omega)
      have hsplit : (M / p) * (r / (M / p)) + r % (M / p) = r :=
        Nat.div_add_mod r (M / p)
      have : r < r / (M / p) * (M / p) + (M / p) := by
        rw [Nat.mul_comm]
        omega
      omega
    · intro i2 h2p hl2 hu2
      refine huniq (r / (M / p)) i2 (by omega) h2p (Nat.div_mul_le_self r (M / p))
        ?_ hl2 hu2
      have hmlt : r % (M / p) < M / p := Nat.mod_lt _ (by omega)
      have hsplit : (M / p) * (r / (M / p)) + r % (M / p) = r :=
        Nat.div_add_mod r (M / p)
      have : r < r / (M / p) * (M / p) + (M / p) := by
        rw [Nat.mul_comm]
        omega
      omega
  · have hple : p ≤ r / (M / p) := by omega
    have hlow : (p - 1) * (M / p) ≤ r := by
      have h1 : p * (M / p) ≤ (r / (M / p)) * (M / p) :=
        Nat.mul_le_mul_right _ hple
      have h2 : (r / (M / p)) * (M / p) ≤ r := Nat.div_mul_le_self r (M / p)
      have h3 : (p - 1) * (M / p) ≤ p * (M / p) :=
        Nat.mul_le_mul_right _ (by omega)
      omega
    have hlast : (p - 1 + 1) / p = 1 := by
      have : p - 1 + 1 = p := by omega
      rw [this]
      exact Nat.div_self hp0
    refine ⟨p - 1, by omega, hlow, ?_, ?_⟩
    · rw [hlast, Nat.mul_one]
      have : (p - 1) * (M / p) + (M / p) = p * (M / p) := by
        have hp1 : p - 1 + 1 = p := by omega
        calc (p - 1) * (M / p) + (M / p) = (p - 1 + 1) * (M / p) := by
              rw [Nat.succ_mul]
          _ = p * (M / p) := by rw [hp1]
      omega
    · intro i2 h2p hl2 hu2
      refine huniq (p - 1) i2 (by omega) h2p hlow ?_ hl2 hu2
      rw [hlast, Nat.mul_one]
      have : (p - 1) * (M / p) + (M / p) = p * (M / p) := by
        have hp1 : p - 1 + 1 = p := by omega
        calc (p - 1) * (M / p) + (M / p) = (p - 1 + 1) * (M / p) := by
              rw [Nat.succ_mul]
          _ = p * (M / p) := by rw [hp1]
      omega

/-- **C9.**  For every `M × K` matrix `A`, `K × N` matrix `B` and partition
counts `1 ≤ p ≤ M`, `1 ≤ q ≤ N`, the blocked multiply `myDgemm` stores in
`C` exactly the `M × N` product `A · B` at every position, and the remainder
rows `M % p` (and columns `N % q`) are carried entirely by the last block in
each direction: every block but the last spans `M / p` rows, the last spans
`M / p + M % p`. -/
theorem myDgemm_correct (p q M N K : Nat) (A B C0 : Nat → Nat → ℚ)
    (hp : 1 ≤ p) (hq : 1 ≤ q) (hpM : p ≤ M) (hqN : q ≤ N)
    (r c : Nat) (hr : r < M) (hc : c < N) :
    myDgemm p q M N K A B C0 r c = matmulAt A B K r c ∧
      (∀ i, i < p - 1 → (M / p) + (M % p) * ((i + 1) / p) = M / p) ∧
      ((M / p) + (M % p) * ((p - 1 + 1) / p) = M / p + M % p) := by
  refine ⟨?_, ?_, ?_⟩
  · obtain ⟨i0, hi0p, hi0l, hi0u, hi0uniq⟩ :=
      rowBlock_exists_unique p M hp hpM r hr
    obtain ⟨j0, hj0p, hj0l, hj0u, hj0uniq⟩ :=
      rowBlock_exists_unique q N hq hqN c hc
    have hcov : blockCovers p q M N (i0, j0) r c := ⟨hi0l, hi0u, hj0l, hj0u⟩
    have hmem : (i0, j0) ∈ (List.range p) ×ˢ (List.range q) :=
      List.mem_product.mpr ⟨List.mem_range.mpr hi0p, List.mem_range.mpr hj0p⟩
    have hnd : ((List.range p) ×ˢ (List.range q)).Nodup :=
      List.Nodup.product (List.nodup_range p) (List.nodup_range q)
    have huniq : ∀ ij ∈ (List.range p) ×ˢ (List.range q),
        blockCovers p q M N ij r c → ij = (i0, j0) := by
      intro ij hijmem hijcov
      obtain ⟨h1, h2⟩ := List.mem_product.mp hijmem
      obtain ⟨hc1, hc2, hc3, hc4⟩ := hijcov
      have e1 : ij.1 = i0 := hi0uniq ij.1 (List.mem_range.mp h1) hc1 hc2
      have e2 : ij.2 = j0 := hj0uniq ij.2 (List.mem_range.mp h2) hc3 hc4
      exact Prod.ext e1 e2
    unfold myDgemm
    rw [foldl_dgemmStep_unique p q M N K A B r c _ C0 (i0, j0) hnd hmem hcov
      huniq]
    unfold matmulAt getRows getCols
    congr 1
    apply List.map_congr_left
    intro k _
    rw [Nat.add_sub_cancel' hi0l, Nat.add_sub_cancel' hj0l]
  · intro i hip
    have : (i + 1) / p = 0 := Nat.div_eq_of_lt (by omega)
    rw [this, Nat.mul_zero, Nat.add_zero]
  · have hplast : p - 1 + 1 = p := by omega
    rw [hplast, Nat.div_self (by omega : 0 < p), Nat.mul_one]

/-- Witness for C9: a 3 × 2 times 2 × 3 product in 2 × 2 blocks, checked at
the bottom-right entry (covered by the remainder block). -/
theorem myDgemm_correct_witness :
    myDgemm 2 2 3 3 2 (fun r k => (r : ℚ) + (k : ℚ)) (fun k c => (k : ℚ) * (c : ℚ))
        (fun _ _ => 0) 2 2 =
      matmulAt (fun r k => (r : ℚ) + (k : ℚ)) (fun k c => (k : ℚ) * (c : ℚ)) 2 2 2 ∧
      (∀ i, i < 2 - 1 → (3 / 2) + (3 % 2) * ((i + 1) / 2) = 3 / 2) ∧
      ((3 / 2) + (3 % 2) * ((2 - 1 + 1) / 2) = 3 / 2 + 3 % 2) :=
  myDgemm_correct 2 2 3 3 2 (fun r k => (r : ℚ) + (k : ℚ))
    (fun k c => (k : ℚ) * (c : ℚ)) (fun _ _ => 0) (by decide) (by decide)
    (by decide) (by decide) 2 2 (by decide) (by decide)

/-! ### Facts about `contractNPT` -/

theorem filter_mem_split {α : Type} [DecidableEq α] (l sub : List α) :
    (l.filter (fun a => a ∈ sub)).length +
      (l.filter (fun a => a ∉ sub)).length = l.length := by
  induction l with
  | nil => rfl
  | cons a t ih =>
      simp only [decide_not] at ih ⊢
      by_cases h : a ∈ sub <;> simp [List.filter_cons, h] <;> omega

theorem length_filter_mem {α : Type} [DecidableEq α] {l sub : List α}
    (hnd : l.Nodup) (hsubnd : sub.Nodup) (hsub : ∀ a ∈ sub, a ∈ l) :
    (l.filter (fun a => a ∈ sub)).length = sub.length := by
  have hperm : (l.filter (fun a => a ∈ sub)).Perm sub := by
    refine List.perm_of_nodup_nodup_toFinset_eq (hnd.filter _) hsubnd ?_
    ext a
    simp only [List.mem_toFinset, List.mem_filter, decide_eq_true_eq]
    constructor
    · rintro ⟨-, h2⟩
      exact h2
    · intro h
      exact ⟨hsub a h, h⟩
  exact hperm.length_eq

theorem length_filter_not_mem {α : Type} [DecidableEq α] {l sub : List α}
    (hnd : l.Nodup) (hsubnd : sub.Nodup) (hsub : ∀ a ∈ sub, a ∈ l) :
    (l.filter (fun a => a ∉ sub)).length = l.length - sub.length := by
  have h1 := filter_mem_split l sub
  have h2 := length_filter_mem hnd hsubnd hsub
  omega

theorem labCommon_nodup (t1 t2 : NPTensor) : (labCommon t1 t2).Nodup :=
  List.nodup_dedup _

theorem labCommon_sub_left (t1 t2 : NPTensor) :
    ∀ l ∈ labCommon t1 t2, l ∈ t1.label := by
  intro l hl
  have := List.mem_dedup.mp hl
  exact (List.mem_filter.mp this).1

theorem labCommon_sub_right (t1 t2 : NPTensor) :
    ∀ l ∈ labCommon t1 t2, l ∈ t2.label := by
  intro l hl
  have := List.mem_dedup.mp hl
  have h2 := (List.mem_filter.mp this).2
  simpa using h2

theorem labCommon_mem_iff (t1 t2 : NPTensor) (l : Int) :
    l ∈ labCommon t1 t2 ↔ l ∈ t1.label ∧ l ∈ t2.label := by
  unfold labCommon
  rw [List.mem_dedup, List.mem_filter]
  simp

theorem idxList_nodup (t : NPTensor) (com : List Int) (hcom : com.Nodup)
    (hsub : ∀ l ∈ com, l ∈ t.label) : (idxList t com).Nodup := by
  refine List.Nodup.map_on ?_ hcom
  intro x hx y hy hxy
  have h1 : t.label.getD (dictIdx t.label x) 0 = x := getD_dictIdx _ _ (hsub x hx)
  have h2 : t.label.getD (dictIdx t.label y) 0 = y := getD_dictIdx _ _ (hsub y hy)
  rw [← h1, ← h2, hxy]

theorem idxList_length (t : NPTensor) (com : List Int) :
    (idxList t com).length = com.length := by
  simp [idxList]

theorem idxList_sub_range (t : NPTensor) (com : List Int)
    (hsub : ∀ l ∈ com, l ∈ t.label) :
    ∀ a ∈ idxList t com, a ∈ List.range t.label.length := by
  intro a ha
  obtain ⟨l, hl, rfl⟩ := List.mem_map.mp ha
  exact List.mem_range.mpr (dictIdx_lt _ _ (hsub l hl))

theorem freePos_length (n : Nat) (idx : List Nat) (hnd : idx.Nodup)
    (hsub : ∀ a ∈ idx, a ∈ List.range n) :
    (freePos n idx).length = n - idx.length := by
  unfold freePos
  rw [length_filter_not_mem (List.nodup_range n) hnd hsub]
  simp

theorem labFinal_length (t1 t2 : NPTensor) (h1nd : t1.label.Nodup)
    (h2nd : t2.label.Nodup) :
    (labFinal t1 t2).length =
      (t1.label.length - (labCommon t1 t2).length) +
        (t2.label.length - (labCommon t1 t2).length) := by
  unfold labFinal
  rw [List.filter_append, List.length_append,
    length_filter_not_mem h1nd (labCommon_nodup t1 t2) (labCommon_sub_left t1 t2),
    length_filter_not_mem h2nd (labCommon_nodup t1 t2) (labCommon_sub_right t1 t2)]

theorem map_range_getD_take {α : Type} (l : List α) (k : Nat) (d : α)
    (hk : k ≤ l.length) :
    (List.range k).map (fun i => l.getD i d) = l.take k := by
  apply List.ext_getElem
  · simp [hk]
  · intro i h1 h2
    simp only [List.getElem_map, List.getElem_range, List.getElem_take]
    exact List.getD_eq_getElem l d (by simp at h2; omega)

theorem map_range_getD_drop {α : Type} (l : List α) (s : Nat) (d : α)
    (hs : s ≤ l.length) :
    (List.range' s (l.length - s)).map (fun i => l.getD i d) = l.drop s := by
  apply List.ext_getElem
  · simp
  · intro i h1 h2
    have hi : i < l.length - s := by simpa using h1
    simp only [List.getElem_map, List.getElem_range', List.getElem_drop]
    rw [List.getD_eq_getElem l d (by omega : s + 1 * i < l.length)]
    congr 1
    omega

theorem nodup_subset_length_le {l sub : List Int} (hsubnd : sub.Nodup)
    (hsub : ∀ a ∈ sub, a ∈ l) : sub.length ≤ l.length := by
  have h1 : sub.toFinset.card = sub.length := List.toFinset_card_of_nodup hsubnd
  have h2 : sub.toFinset ⊆ l.toFinset := fun a ha =>
    List.mem_toFinset.mpr (hsub a (List.mem_toFinset.mp ha))
  have h3 : sub.toFinset.card ≤ l.toFinset.card := Finset.card_le_card h2
  have h4 : l.toFinset.card ≤ l.length := l.toFinset_card_le
  omega

/-- `lab_ot` is a rearrangement of `lab1 ++ lab2`. -/
theorem labOt_perm (t1 t2 : NPTensor)
    (h1l : t1.label.length = t1.bn) (h2l : t2.label.length = t2.bn)
    (h1i : t1.ibn ≤ t1.bn) (h2i : t2.ibn ≤ t2.bn) :
    (labOt t1 t2).Perm (t1.label ++ t2.label) := by
  have hb1 : t1.bn - t1.ibn = t1.label.length - t1.ibn := by omega
  have hb2 : t2.bn - t2.ibn = t2.label.length - t2.ibn := by omega
  have e1 : (List.range t1.ibn).map (fun i => t1.label.getD i 0) =
      t1.label.take t1.ibn := map_range_getD_take _ _ _ (by omega)
  have e2 : (List.range t2.ibn).map (fun i => t2.label.getD i 0) =
      t2.label.take t2.ibn := map_range_getD_take _ _ _ (by omega)
  have e3 : (List.range' t1.ibn (t1.bn - t1.ibn)).map
      (fun i => t1.label.getD i 0) = t1.label.drop t1.ibn := by
    rw [hb1]
    exact map_range_getD_drop _ _ _ (by omega)
  have e4 : (List.range' t2.ibn (t2.bn - t2.ibn)).map
      (fun i => t2.label.getD i 0) = t2.label.drop t2.ibn := by
    rw [hb2]
    exact map_range_getD_drop _ _ _ (by omega)
  rw [labOt, e1, e2, e3, e4]
  have hmid : (t2.label.take t2.ibn ++
      (t1.label.drop t1.ibn ++ t2.label.drop t2.ibn)).Perm
      (t1.label.drop t1.ibn ++ (t2.label.take t2.ibn ++ t2.label.drop t2.ibn)) := by
    have h2 := List.Perm.append_right (t2.label.drop t2.ibn)
      (@List.perm_append_comm _ (t2.label.take t2.ibn)
        (t1.label.drop t1.ibn))
    rw [← List.append_assoc, ← List.append_assoc]
    exact h2
  refine (List.Perm.append_left _ hmid).trans ?_
  rw [← List.append_assoc, List.take_append_drop, List.take_append_drop]

/-- The shared-label branch of `contractNPT` under well-formedness and
matching shared dimensions: the explicit result. -/
theorem contract_pos_eq (t1 t2 : NPTensor)
    (h1l : t1.label.length = t1.bn) (h1s : t1.shape.length = t1.bn)
    (h1nd : t1.label.Nodup)
    (h2l : t2.label.length = t2.bn) (h2s : t2.shape.length = t2.bn)
    (h2nd : t2.label.Nodup)
    (hpos : 0 < (labCommon t1 t2).length)
    (hdims : (idxList t1 (labCommon t1 t2)).map (fun a => t1.shape.getD a 0) =
      (idxList t2 (labCommon t1 t2)).map (fun a => t2.shape.getD a 0)) :
    contractNPT t1 t2 = some
      { bn := ((freePos t1.shape.length (idxList t1 (labCommon t1 t2))).map
            (fun a => t1.shape.getD a 0) ++
          (freePos t2.shape.length (idxList t2 (labCommon t1 t2))).map
            (fun a => t2.shape.getD a 0)).length
        ibn := t1.label.length - (labCommon t1 t2).length
        label := labFinal t1 t2
        shape := (freePos t1.shape.length (idxList t1 (labCommon t1 t2))).map
            (fun a => t1.shape.getD a 0) ++
          (freePos t2.shape.length (idxList t2 (labCommon t1 t2))).map
            (fun a => t2.shape.getD a 0)
        elem := tensordotElem t1 t2 (idxList t1 (labCommon t1 t2))
          (idxList t2 (labCommon t1 t2)) } := by
  have hsub1 : ∀ a ∈ idxList t1 (labCommon t1 t2), a ∈ List.range t1.shape.length := by
    intro a ha
    have h := idxList_sub_range t1 _ (labCommon_sub_left t1 t2) a ha
    rw [List.mem_range] at h ⊢
    omega
  have hsub2 : ∀ a ∈ idxList t2 (labCommon t1 t2), a ∈ List.range t2.shape.length := by
    intro a ha
    have h := idxList_sub_range t2 _ (labCommon_sub_right t1 t2) a ha
    rw [List.mem_range] at h ⊢
    omega
  have hnd1 : (idxList t1 (labCommon t1 t2)).Nodup :=
    idxList_nodup t1 _ (labCommon_nodup t1 t2) (labCommon_sub_left t1 t2)
  have hnd2 : (idxList t2 (labCommon t1 t2)).Nodup :=
    idxList_nodup t2 _ (labCommon_nodup t1 t2) (labCommon_sub_right t1 t2)
  have hclen1 : (labCommon t1 t2).length ≤ t1.label.length :=
    nodup_subset_length_le (labCommon_nodup t1 t2) (labCommon_sub_left t1 t2)
  have hclen2 : (labCommon t1 t2).length ≤ t2.label.length :=
    nodup_subset_length_le (labCommon_nodup t1 t2) (labCommon_sub_right t1 t2)
  have hlen : (labFinal t1 t2).length =
      ((freePos t1.shape.length (idxList t1 (labCommon t1 t2))).map
          (fun a => t1.shape.getD a 0) ++
        (freePos t2.shape.length (idxList t2 (labCommon t1 t2))).map
          (fun a => t2.shape.getD a 0)).length := by
    rw [labFinal_length t1 t2 h1nd h2nd, List.length_append, List.length_map,
      List.length_map, freePos_length _ _ hnd1 hsub1, freePos_length _ _ hnd2 hsub2,
      idxList_length, idxList_length]
    omega
  unfold contractNPT
  rw [if_pos hpos, if_pos hdims]
  have hset : (NPTensor.ofArray
      ((freePos t1.shape.length (idxList t1 (labCommon t1 t2))).map
          (fun a => t1.shape.getD a 0) ++
        (freePos t2.shape.length (idxList t2 (labCommon t1 t2))).map
          (fun a => t2.shape.getD a 0))
      (tensordotElem t1 t2 (idxList t1 (labCommon t1 t2))
        (idxList t2 (labCommon t1 t2)))).setLabel (labFinal t1 t2) =
      some { NPTensor.ofArray
        ((freePos t1.shape.length (idxList t1 (labCommon t1 t2))).map
            (fun a => t1.shape.getD a 0) ++
          (freePos t2.shape.length (idxList t2 (labCommon t1 t2))).map
            (fun a => t2.shape.getD a 0))
        (tensordotElem t1 t2 (idxList t1 (labCommon t1 t2))
          (idxList t2 (labCommon t1 t2))) with label := labFinal t1 t2 } := by
    unfold NPTensor.setLabel
    rw [if_pos (show (labFinal t1 t2).length = (NPTensor.ofArray
      ((freePos t1.shape.length (idxList t1 (labCommon t1 t2))).map
          (fun a => t1.shape.getD a 0) ++
        (freePos t2.shape.length (idxList t2 (labCommon t1 t2))).map
          (fun a => t2.shape.getD a 0))
      (tensordotElem t1 t2 (idxList t1 (labCommon t1 t2))
        (idxList t2 (labCommon t1 t2)))).shape.length from hlen)]
  rw [hset]
  rfl

/-- The axis list of the final permutation in the no-shared-label branch of
`contractNPT`. -/
def zAxes (t1 t2 : NPTensor) : List Nat :=
  (List.range (t1.shape ++ t2.shape).length).map
    (fun i => dictIdx (labFinal t1 t2) ((labOt t1 t2).getD i 0))

/-- The no-shared-label branch of `contractNPT` under well-formedness: the
outer product is relabelled and permuted to `lab_ot` with
`ibn = t1.ibn + t2.ibn`. -/
theorem contract_zero_eq (t1 t2 : NPTensor)
    (h1l : t1.label.length = t1.bn) (h1s : t1.shape.length = t1.bn)
    (h1nd : t1.label.Nodup) (h1i : t1.ibn ≤ t1.bn)
    (h2l : t2.label.length = t2.bn) (h2s : t2.shape.length = t2.bn)
    (h2nd : t2.label.Nodup) (h2i : t2.ibn ≤ t2.bn)
    (hzero : (labCommon t1 t2).length = 0) :
    contractNPT t1 t2 = some
      { bn := (t1.shape ++ t2.shape).length
        ibn := t1.ibn + t2.ibn
        label := labOt t1 t2
        shape := (zAxes t1 t2).map (fun a => (t1.shape ++ t2.shape).getD a 0)
        elem := fun I =>
          t1.elem ((transposeIdx (zAxes t1 t2) (t1.shape ++ t2.shape).length
            I).take t1.shape.length) *
          t2.elem ((transposeIdx (zAxes t1 t2) (t1.shape ++ t2.shape).length
            I).drop t1.shape.length) } := by
  have hcom : labCommon t1 t2 = [] := List.length_eq_zero.mp hzero
  have hfin : labFinal t1 t2 = t1.label ++ t2.label := by
    unfold labFinal
    rw [hcom]
    apply List.filter_eq_self.mpr
    intro a _
    simp
  have hdisj : t1.label.Disjoint t2.label := by
    intro a ha1 ha2
    have h := (labCommon_mem_iff t1 t2 a).mpr ⟨ha1, ha2⟩
    rw [hcom] at h
    cases h
  unfold contractNPT
  rw [if_neg (by omega)]
  set npt1 : NPTensor :=
    { bn := (t1.shape ++ t2.shape).length
      ibn := (t1.shape ++ t2.shape).length
      label := labFinal t1 t2
      shape := t1.shape ++ t2.shape
      elem := fun I => t1.elem (I.take t1.shape.length) *
        t2.elem (I.drop t1.shape.length) }
    with hnpt1
  have hlen0 : (labFinal t1 t2).length = (t1.shape ++ t2.shape).length := by
    rw [hfin]
    simp only [List.length_append]
    omega
  have hset : (NPTensor.ofArray (t1.shape ++ t2.shape)
      (fun I => t1.elem (I.take t1.shape.length) *
        t2.elem (I.drop t1.shape.length))).setLabel (labFinal t1 t2) =
      some npt1 := by
    unfold NPTensor.setLabel
    rw [if_pos (show (labFinal t1 t2).length = (NPTensor.ofArray
      (t1.shape ++ t2.shape) (fun I => t1.elem (I.take t1.shape.length) *
        t2.elem (I.drop t1.shape.length))).shape.length from hlen0)]
    rfl
  rw [hset]
  show npt1.permute (labOt t1 t2) ((t1.ibn : Int) + (t2.ibn : Int)) = _
  have hl : npt1.label.length = npt1.bn := hlen0
  have hs : npt1.shape.length = npt1.bn := rfl
  have hnd : npt1.label.Nodup := by
    show (labFinal t1 t2).Nodup
    rw [hfin]
    exact List.nodup_append.mpr ⟨h1nd, h2nd, hdisj⟩
  have hOtlen : (labOt t1 t2).length = t1.label.length + t2.label.length := by
    simp only [labOt, List.length_append, List.length_map, List.length_range,
      List.length_range']
    omega
  have hlen2 : (labOt t1 t2).length = npt1.label.length := by
    show (labOt t1 t2).length = (labFinal t1 t2).length
    rw [hOtlen, hfin, List.length_append]
  have hsetfin : (labOt t1 t2).toFinset = npt1.label.toFinset := by
    show (labOt t1 t2).toFinset = (labFinal t1 t2).toFinset
    rw [hfin]
    exact List.toFinset_eq_of_perm _ _ (labOt_perm t1 t2 h1l h2l h1i h2i)
  rw [permute_eq_some npt1 (labOt t1 t2) ((t1.ibn : Int) + (t2.ibn : Int))
    hl hs hnd hlen2 hsetfin]
  have hi : (if (0 : Int) ≤ (t1.ibn : Int) + (t2.ibn : Int) then
      ((t1.ibn : Int) + (t2.ibn : Int)).toNat else npt1.ibn) =
      t1.ibn + t2.ibn := by
    rw [if_pos (by omega)]
    omega
  rw [hi]
  rfl

/-! ### C3: `contract` and bond compatibility -/

/-- A rank-1 tensor whose single bond is IN (`ibn = 1`) with label 0. -/
def egA : NPTensor :=
  { bn := 1, ibn := 1, label := [0], shape := [2]
    elem := fun I => (I.getD 0 0 : ℚ) }

/-- Another rank-1 tensor whose single bond is also IN, with the same
label 0 — the same direction as `egA`'s bond, not the opposite one. -/
def egB : NPTensor :=
  { bn := 1, ibn := 1, label := [0], shape := [2]
    elem := fun I => (I.getD 0 0 : ℚ) + 1 }

/-- Counterexample to C3 as stated: `egA` and `egB` share label 0, and in
both tensors that label names an IN bond (its axis position lies below
`ibn`), so the bonds are *not* of opposite direction; the claim demands a
`BondMismatch` failure, yet `contractNPT` succeeds. -/
theorem contractNPT_ignores_direction :
    (contractNPT egA egB).isSome = true ∧
      (0 : Int) ∈ labCommon egA egB ∧
      egA.ibn = 1 ∧ egB.ibn = 1 ∧
      dictIdx egA.label 0 < egA.ibn ∧ dictIdx egB.label 0 < egB.ibn :=
  ⟨rfl, by decide, rfl, rfl, by decide, by decide⟩

/-- **C3 (amended).**  For well-formed `NPTensor`s, `contractNPT` succeeds
iff every shared label names axes of equal length in the two operands —
bond directions are never checked (only `numpy.tensordot`'s shape check can
fail).  On success the result carries exactly the non-shared labels, with
`2·|shared|` fewer bonds than the operands combined. -/
theorem contractNPT_spec (t1 t2 : NPTensor)
    (h1l : t1.label.length = t1.bn) (h1s : t1.shape.length = t1.bn)
    (h1nd : t1.label.Nodup) (h1i : t1.ibn ≤ t1.bn)
    (h2l : t2.label.length = t2.bn) (h2s : t2.shape.length = t2.bn)
    (h2nd : t2.label.Nodup) (h2i : t2.ibn ≤ t2.bn) :
    ((contractNPT t1 t2).isSome = true ↔
      ∀ l ∈ labCommon t1 t2,
        t1.shape.getD (dictIdx t1.label l) 0 =
          t2.shape.getD (dictIdx t2.label l) 0) ∧
    ∀ r, contractNPT t1 t2 = some r →
      r.label.toFinset = (labFinal t1 t2).toFinset ∧
      r.bn = t1.bn + t2.bn - 2 * (labCommon t1 t2).length := by
  have hdims_iff : ((idxList t1 (labCommon t1 t2)).map (fun a => t1.shape.getD a 0) =
      (idxList t2 (labCommon t1 t2)).map (fun a => t2.shape.getD a 0)) ↔
      (∀ l ∈ labCommon t1 t2,
        t1.shape.getD (dictIdx t1.label l) 0 =
          t2.shape.getD (dictIdx t2.label l) 0) := by
    unfold idxList
    rw [List.map_map, List.map_map]
    constructor
    · intro h l hl
      simpa using (List.map_eq_map_iff.mp h) l hl
    · intro h
      apply List.map_eq_map_iff.mpr
      intro l hl
      simpa using h l hl
  have hclen1 : (labCommon t1 t2).length ≤ t1.label.length :=
    nodup_subset_length_le (labCommon_nodup t1 t2) (labCommon_sub_left t1 t2)
  have hclen2 : (labCommon t1 t2).length ≤ t2.label.length :=
    nodup_subset_length_le (labCommon_nodup t1 t2) (labCommon_sub_right t1 t2)
  refine ⟨?_, ?_⟩
  · by_cases hpos : 0 < (labCommon t1 t2).length
    · by_cases hdims : (idxList t1 (labCommon t1 t2)).map (fun a => t1.shape.getD a 0) =
          (idxList t2 (labCommon t1 t2)).map (fun a => t2.shape.getD a 0)
      · rw [contract_pos_eq t1 t2 h1l h1s h1nd h2l h2s h2nd hpos hdims]
        simp only [Option.isSome_some, true_iff]
        exact hdims_iff.mp hdims
      · have hnone : contractNPT t1 t2 = none := by
          unfold contractNPT
          rw [if_pos hpos, if_neg hdims]
        rw [hnone]
        simp only [Option.isSome_none, Bool.false_eq_true, false_iff]
        intro hcon
        exact hdims (hdims_iff.mpr hcon)
    · rw [contract_zero_eq t1 t2 h1l h1s h1nd h1i h2l h2s h2nd h2i (by omega)]
      simp only [Option.isSome_some, true_iff]
      intro l hl
      rw [List.length_eq_zero.mp (by omega : (labCommon t1 t2).length = 0)] at hl
      cases hl
  · intro r hr
    by_cases hpos : 0 < (labCommon t1 t2).length
    · by_cases hdims : (idxList t1 (labCommon t1 t2)).map (fun a => t1.shape.getD a 0) =
          (idxList t2 (labCommon t1 t2)).map (fun a => t2.shape.getD a 0)
      · rw [contract_pos_eq t1 t2 h1l h1s h1nd h2l h2s h2nd hpos hdims] at hr
        cases Option.some_inj.mp hr
        have hsub1 : ∀ a ∈ idxList t1 (labCommon t1 t2),
            a ∈ List.range t1.shape.length := by
          intro a ha
          have h := idxList_sub_range t1 _ (labCommon_sub_left t1 t2) a ha
          rw [List.mem_range] at h ⊢
          omega
        have hsub2 : ∀ a ∈ idxList t2 (labCommon t1 t2),
            a ∈ List.range t2.shape.length := by
          intro a ha
          have h := idxList_sub_range t2 _ (labCommon_sub_right t1 t2) a ha
          rw [List.mem_range] at h ⊢
          omega
        have hnd1 : (idxList t1 (labCommon t1 t2)).Nodup :=
          idxList_nodup t1 _ (labCommon_nodup t1 t2) (labCommon_sub_left t1 t2)
        have hnd2 : (idxList t2 (labCommon t1 t2)).Nodup :=
          idxList_nodup t2 _ (labCommon_nodup t1 t2) (labCommon_sub_right t1 t2)
        refine ⟨rfl, ?_⟩
        show ((freePos t1.shape.length (idxList t1 (labCommon t1 t2))).map
            (fun a => t1.shape.getD a 0) ++
          (freePos t2.shape.length (idxList t2 (labCommon t1 t2))).map
            (fun a => t2.shape.getD a 0)).length =
          t1.bn + t2.bn - 2 * (labCommon t1 t2).length
        rw [List.length_append, List.length_map, List.length_map,
          freePos_length _ _ hnd1 hsub1, freePos_length _ _ hnd2 hsub2,
          idxList_length, idxList_length]
        omega
      · have hnone : contractNPT t1 t2 = none := by
          unfold contractNPT
          rw [if_pos hpos, if_neg hdims]
        rw [hnone] at hr
        cases hr
    · have hzero : (labCommon t1 t2).length = 0 := by omega
      rw [contract_zero_eq t1 t2 h1l h1s h1nd h1i h2l h2s h2nd h2i hzero] at hr
      cases Option.some_inj.mp hr
      have hcom : labCommon t1 t2 = [] := List.length_eq_zero.mp hzero
      have hfin : labFinal t1 t2 = t1.label ++ t2.label := by
        unfold labFinal
        rw [hcom]
        apply List.filter_eq_self.mpr
        intro a _
        simp
      constructor
      · show (labOt t1 t2).toFinset = (labFinal t1 t2).toFinset
        rw [hfin]
        exact List.toFinset_eq_of_perm _ _ (labOt_perm t1 t2 h1l h2l h1i h2i)
      · show (t1.shape ++ t2.shape).length =
          t1.bn + t2.bn - 2 * (labCommon t1 t2).length
        simp only [List.length_append]
        omega

/-- A rank-2 tensor with an IN bond (label 0) and an OUT bond (label 5). -/
def egC : NPTensor :=
  { bn := 2, ibn := 1, label := [0, 5], shape := [2, 3]
    elem := fun I => (I.getD 0 0 : ℚ) }

/-- A rank-1 tensor whose single bond is OUT (`ibn = 0`), labelled 5 as
well, with matching dimension 3. -/
def egD : NPTensor :=
  { bn := 1, ibn := 0, label := [5], shape := [3]
    elem := fun I => (I.getD 0 0 : ℚ) - 1 }

/-- Witness for the amended C3 at concrete tensors sharing label 5. -/
theorem contractNPT_spec_witness :
    (((contractNPT egC egD).isSome = true ↔
      ∀ l ∈ labCommon egC egD,
        egC.shape.getD (dictIdx egC.label l) 0 =
          egD.shape.getD (dictIdx egD.label l) 0) ∧
    ∀ r, contractNPT egC egD = some r →
      r.label.toFinset = (labFinal egC egD).toFinset ∧
      r.bn = egC.bn + egD.bn - 2 * (labCommon egC egD).length) :=
  contractNPT_spec egC egD (by decide) (by decide) (by decide) (by decide)
    (by decide) (by decide) (by decide) (by decide)

/-! ### C10: `contractNPT` on tensors with disjoint labels -/

theorem getD_map_range_getD (l : List Int) (a k : Nat) (hk : k < a) :
    (((List.range a).map (fun i => l.getD i 0))).getD k 0 = l.getD k 0 := by
  have hr : (List.range a).getD k 0 = k := by
    rw [List.getD_eq_getElem _ 0 (by simpa using hk)]
    exact List.getElem_range k _
  rw [getD_map_of_lt _ _ k 0 0 (by simpa using hk), hr]

theorem getD_map_range_getD' (l : List Int) (s a m : Nat) (hm : m < a) :
    (((List.range' s a).map (fun i => l.getD i 0))).getD m 0 =
      l.getD (s + m) 0 := by
  have hr : (List.range' s a).getD m 0 = s + m := by
    rw [List.getD_eq_getElem _ 0 (by simpa using hm)]
    rw [List.getElem_range']
    omega
  rw [getD_map_of_lt _ _ m 0 0 (by simpa using hm), hr]

theorem dictIdx_append_left (l1 l2 : List Int) (hnd : (l1 ++ l2).Nodup)
    (k : Nat) (hk : k < l1.length) :
    dictIdx (l1 ++ l2) (l1.getD k 0) = k := by
  have hmem1 : l1.getD k 0 ∈ l1 := by
    rw [List.getD_eq_getElem l1 0 hk]
    exact List.getElem_mem hk
  rw [dictIdx_eq_indexOf _ hnd _ (List.mem_append_left l2 hmem1),
    List.indexOf_append_of_mem hmem1, List.getD_eq_getElem l1 0 hk]
  exact List.indexOf_getElem (List.nodup_append.mp hnd).1 k hk

theorem dictIdx_append_right (l1 l2 : List Int) (hnd : (l1 ++ l2).Nodup)
    (m : Nat) (hm : m < l2.length) :
    dictIdx (l1 ++ l2) (l2.getD m 0) = l1.length + m := by
  have hmem2 : l2.getD m 0 ∈ l2 := by
    rw [List.getD_eq_getElem l2 0 hm]
    exact List.getElem_mem hm
  have hnot : l2.getD m 0 ∉ l1 := by
    intro hmem1
    exact (List.nodup_append.mp hnd).2.2 hmem1 hmem2
  rw [dictIdx_eq_indexOf _ hnd _ (List.mem_append_right l1 hmem2),
    List.indexOf_append_of_not_mem hnot, List.getD_eq_getElem l2 0 hm]
  congr 1
  exact List.indexOf_getElem (List.nodup_append.mp hnd).2.1 m hm

/-- Positional values of `lab_ot`: the four segments read `t1`-IN,
`t2`-IN, `t1`-OUT, `t2`-OUT labels. -/
theorem labOt_getD (t1 t2 : NPTensor)
    (_h1l : t1.label.length = t1.bn) (_h2l : t2.label.length = t2.bn)
    (h1i : t1.ibn ≤ t1.bn) (h2i : t2.ibn ≤ t2.bn)
    (k : Nat) (hk : k < t1.bn + t2.bn) :
    (labOt t1 t2).getD k 0 =
      if k < t1.ibn then t1.label.getD k 0
      else if k < t1.ibn + t2.ibn then t2.label.getD (k - t1.ibn) 0
      else if k < t2.ibn + t1.bn then t1.label.getD (k - t2.ibn) 0
      else t2.label.getD (t2.ibn + (k - t2.ibn - t1.bn)) 0 := by
  unfold labOt
  split_ifs with h1 h2 h3
  · rw [List.getD_append _ _ _ _ (by simpa using h1)]
    exact getD_map_range_getD _ _ _ h1
  · rw [List.getD_append_right _ _ _ _ (by simp; omega),
      List.getD_append _ _ _ _ (by simp; omega)]
    have e1 : ((List.range t1.ibn).map (fun i => t1.label.getD i 0)).length =
        t1.ibn := by simp
    rw [e1]
    exact getD_map_range_getD _ _ _ (by omega)
  · rw [List.getD_append_right _ _ _ _ (by simp; omega),
      List.getD_append_right _ _ _ _ (by simp; omega),
      List.getD_append _ _ _ _ (by simp; omega)]
    simp only [List.length_map, List.length_range]
    have e2 := getD_map_range_getD' t1.label t1.ibn (t1.bn - t1.ibn)
      (k - t1.ibn - t2.ibn) (by omega)
    rw [e2]
    congr 1
    omega
  · rw [List.getD_append_right _ _ _ _ (by simp; omega),
      List.getD_append_right _ _ _ _ (by simp; omega),
      List.getD_append_right _ _ _ _ (by simp; omega)]
    simp only [List.length_map, List.length_range, List.length_range']
    have e2 := getD_map_range_getD' t2.label t2.ibn (t2.bn - t2.ibn)
      (k - t1.ibn - t2.ibn - (t1.bn - t1.ibn)) (by omega)
    rw [e2]
    congr 1
    omega

/-- Closed form of the final permutation's axis list in the outer-product
branch: IN axes keep or shift position, OUT axes move behind the other
tensor's IN axes. -/
theorem zAxes_getD (t1 t2 : NPTensor)
    (h1l : t1.label.length = t1.bn) (h1s : t1.shape.length = t1.bn)
    (h2l : t2.label.length = t2.bn) (h2s : t2.shape.length = t2.bn)
    (h1i : t1.ibn ≤ t1.bn) (h2i : t2.ibn ≤ t2.bn)
    (hnd : (t1.label ++ t2.label).Nodup)
    (hfin : labFinal t1 t2 = t1.label ++ t2.label)
    (k : Nat) (hk : k < t1.bn + t2.bn) :
    (zAxes t1 t2).getD k 0 =
      if k < t1.ibn then k
      else if k < t1.ibn + t2.ibn then t1.bn + (k - t1.ibn)
      else if k < t2.ibn + t1.bn then k - t2.ibn
      else k := by
  have hklen : k < (t1.shape ++ t2.shape).length := by simp; omega
  have hzk : (zAxes t1 t2).getD k 0 =
      dictIdx (labFinal t1 t2) ((labOt t1 t2).getD k 0) := by
    unfold zAxes
    have hr : (List.range ((t1.shape ++ t2.shape).length)).getD k 0 = k := by
      rw [List.getD_eq_getElem _ 0 (by simpa using hklen)]
      exact List.getElem_range k _
    rw [getD_map_of_lt _ _ k 0 0 (by simpa using hklen), hr]
  rw [hzk, hfin, labOt_getD t1 t2 h1l h2l h1i h2i k hk]
  split_ifs with h1 h2 h3
  · rw [dictIdx_append_left _ _ hnd k (by omega)]
  · rw [dictIdx_append_right _ _ hnd (k - t1.ibn) (by omega)]
    omega
  · rw [dictIdx_append_left _ _ hnd (k - t2.ibn) (by omega)]
  · rw [dictIdx_append_right _ _ hnd (t2.ibn + (k - t2.ibn - t1.bn)) (by omega)]
    omega

/-- **C10.**  For every pair of well-formed `NPTensor`s with disjoint label
sets, `contractNPT` succeeds and returns their outer product permuted so
that the result's labels are, in order, `t1`'s IN labels, `t2`'s IN labels,
`t1`'s OUT labels, `t2`'s OUT labels, with `inBondNum = t1.ibn + t2.ibn`;
each element of the result is the product of the corresponding elements of
the operands. -/
theorem contractNPT_outer (t1 t2 : NPTensor)
    (h1l : t1.label.length = t1.bn) (h1s : t1.shape.length = t1.bn)
    (h1nd : t1.label.Nodup) (h1i : t1.ibn ≤ t1.bn)
    (h2l : t2.label.length = t2.bn) (h2s : t2.shape.length = t2.bn)
    (h2nd : t2.label.Nodup) (h2i : t2.ibn ≤ t2.bn)
    (hdisj : ∀ l ∈ t1.label, l ∉ t2.label) :
    ∃ r, contractNPT t1 t2 = some r ∧
      r.label = t1.label.take t1.ibn ++ (t2.label.take t2.ibn ++
        (t1.label.drop t1.ibn ++ t2.label.drop t2.ibn)) ∧
      r.ibn = t1.ibn + t2.ibn ∧
      r.bn = t1.bn + t2.bn ∧
      ∀ I1i I2i I1o I2o : List Nat,
        I1i.length = t1.ibn → I2i.length = t2.ibn →
        I1o.length = t1.bn - t1.ibn → I2o.length = t2.bn - t2.ibn →
        r.elem (I1i ++ (I2i ++ (I1o ++ I2o))) =
          t1.elem (I1i ++ I1o) * t2.elem (I2i ++ I2o) := by
  have hcomnil : labCommon t1 t2 = [] := by
    unfold labCommon
    have h : t1.label.filter (fun x => x ∈ t2.label) = [] :=
      List.filter_eq_nil_iff.mpr (fun a ha => by simpa using hdisj a ha)
    rw [h]
    rfl
  have hzero : (labCommon t1 t2).length = 0 := by rw [hcomnil]; rfl
  have hfin : labFinal t1 t2 = t1.label ++ t2.label := by
    unfold labFinal
    rw [hcomnil]
    apply List.filter_eq_self.mpr
    intro a _
    simp
  have hnd : (t1.label ++ t2.label).Nodup :=
    List.nodup_append.mpr ⟨h1nd, h2nd, fun a ha hb => hdisj a ha hb⟩
  have heq := contract_zero_eq t1 t2 h1l h1s h1nd h1i h2l h2s h2nd h2i hzero
  have hn : (t1.shape ++ t2.shape).length = t1.bn + t2.bn := by simp; omega
  refine ⟨_, heq, ?_, rfl, ?_, ?_⟩
  · show labOt t1 t2 = _
    have hb1 : t1.bn - t1.ibn = t1.label.length - t1.ibn := by omega
    have hb2 : t2.bn - t2.ibn = t2.label.length - t2.ibn := by omega
    have e1 : (List.range t1.ibn).map (fun i => t1.label.getD i 0) =
        t1.label.take t1.ibn := map_range_getD_take _ _ _ (by omega)
    have e2 : (List.range t2.ibn).map (fun i => t2.label.getD i 0) =
        t2.label.take t2.ibn := map_range_getD_take _ _ _ (by omega)
    have e3 : (List.range' t1.ibn (t1.bn - t1.ibn)).map
        (fun i => t1.label.getD i 0) = t1.label.drop t1.ibn := by
      rw [hb1]
      exact map_range_getD_drop _ _ _ (by omega)
    have e4 : (List.range' t2.ibn (t2.bn - t2.ibn)).map
        (fun i => t2.label.getD i 0) = t2.label.drop t2.ibn := by
      rw [hb2]
      exact map_range_getD_drop _ _ _ (by omega)
    rw [labOt, e1, e2, e3, e4]
  · show (t1.shape ++ t2.shape).length = t1.bn + t2.bn
    exact hn
  · intro I1i I2i I1o I2o hL1 hL2 hL3 hL4
    have hperm : IsAxesPerm (zAxes t1 t2) (t1.shape ++ t2.shape).length := by
      have hl2 : (labFinal t1 t2).length = (t1.shape ++ t2.shape).length := by
        rw [hfin]
        simp only [List.length_append]
        omega
      have hlen2 : (labOt t1 t2).length = (labFinal t1 t2).length := by
        rw [hfin]
        simp only [labOt, List.length_append, List.length_map,
          List.length_range, List.length_range']
        omega
      have hsetf : (labOt t1 t2).toFinset = (labFinal t1 t2).toFinset := by
        rw [hfin]
        exact List.toFinset_eq_of_perm _ _ (labOt_perm t1 t2 h1l h2l h1i h2i)
      have hndf : (labFinal t1 t2).Nodup := by rw [hfin]; exact hnd
      exact (axesOf_isPerm
        { bn := (t1.shape ++ t2.shape).length
          ibn := (t1.shape ++ t2.shape).length
          label := labFinal t1 t2
          shape := t1.shape ++ t2.shape
          elem := fun I => t1.elem (I.take t1.shape.length) *
            t2.elem (I.drop t1.shape.length) }
        (labOt t1 t2) hl2 hndf hlen2 hsetf).1
    have hJ : transposeIdx (zAxes t1 t2) (t1.shape ++ t2.shape).length
        (I1i ++ (I2i ++ (I1o ++ I2o))) = (I1i ++ I1o) ++ (I2i ++ I2o) := by
      refine transposeIdx_eq_of_spec hperm _ _ ?_ ?_
      · simp only [List.length_append]
        omega
      · intro k hk2
        have hkbn : k < t1.bn + t2.bn := by omega
        rw [zAxes_getD t1 t2 h1l h1s h2l h2s h1i h2i hnd hfin k hkbn]
        split_ifs with hc1 hc2 hc3
        · have hJ1 : ((I1i ++ I1o) ++ (I2i ++ I2o)).getD k 0 = I1i.getD k 0 := by
            rw [List.getD_append _ _ _ _ (by simp; omega),
              List.getD_append _ _ _ _ (by omega)]
          have hI1 : (I1i ++ (I2i ++ (I1o ++ I2o))).getD k 0 = I1i.getD k 0 := by
            rw [List.getD_append _ _ _ _ (by omega)]
          rw [hJ1, hI1]
        · have hJ2 : ((I1i ++ I1o) ++ (I2i ++ I2o)).getD (t1.bn + (k - t1.ibn)) 0 =
              I2i.getD (k - t1.ibn) 0 := by
            rw [List.getD_append_right _ _ _ _ (by simp; omega),
              List.getD_append _ _ _ _ (by simp; omega)]
            congr 1
            simp only [List.length_append, hL1, hL3]
            omega
          have hI2 : (I1i ++ (I2i ++ (I1o ++ I2o))).getD k 0 =
              I2i.getD (k - t1.ibn) 0 := by
            rw [List.getD_append_right _ _ _ _ (by omega),
              List.getD_append _ _ _ _ (by omega)]
            congr 1
            omega
          rw [hJ2, hI2]
        · have hJ3 : ((I1i ++ I1o) ++ (I2i ++ I2o)).getD (k - t2.ibn) 0 =
              I1o.getD (k - t2.ibn - t1.ibn) 0 := by
            rw [List.getD_append _ _ _ _ (by simp; omega),
              List.getD_append_right _ _ _ _ (by omega)]
            congr 1
            omega
          have hI3 : (I1i ++ (I2i ++ (I1o ++ I2o))).getD k 0 =
              I1o.getD (k - t1.ibn - t2.ibn) 0 := by
            rw [List.getD_append_right _ _ _ _ (by omega),
              List.getD_append_right _ _ _ _ (by omega),
              List.getD_append _ _ _ _ (by omega)]
            congr 1
            omega
          rw [hJ3, hI3]
          congr 1
          omega
        · have hJ4 : ((I1i ++ I1o) ++ (I2i ++ I2o)).getD k 0 =
              I2o.getD (k - t1.bn - t2.ibn) 0 := by
            rw [List.getD_append_right _ _ _ _ (by simp; omega),
              List.getD_append_right _ _ _ _ (by simp; omega)]
            congr 1
            simp only [List.length_append, hL1, hL2, hL3]
            omega
          have hI4 : (I1i ++ (I2i ++ (I1o ++ I2o))).getD k 0 =
              I2o.getD (k - t1.ibn - t2.ibn - (t1.bn - t1.ibn)) 0 := by
            rw [List.getD_append_right _ _ _ _ (by omega),
              List.getD_append_right _ _ _ _ (by omega),
              List.getD_append_right _ _ _ _ (by omega)]
            congr 1
            omega
          rw [hJ4, hI4]
          congr 1
          omega
    show t1.elem ((transposeIdx (zAxes t1 t2) (t1.shape ++ t2.shape).length
        (I1i ++ (I2i ++ (I1o ++ I2o)))).take t1.shape.length) *
      t2.elem ((transposeIdx (zAxes t1 t2) (t1.shape ++ t2.shape).length
        (I1i ++ (I2i ++ (I1o ++ I2o)))).drop t1.shape.length) =
        t1.elem (I1i ++ I1o) * t2.elem (I2i ++ I2o)
    rw [hJ, List.take_left' (by simp; omega), List.drop_left' (by simp; omega)]

/-- Witness for C10: a rank-1 IN-bond tensor against a rank-1 OUT-bond
tensor with disjoint labels. -/
theorem contractNPT_outer_witness :
    ∃ r, contractNPT egT1 egD = some r ∧
      r.label = egT1.label.take egT1.ibn ++ (egD.label.take egD.ibn ++
        (egT1.label.drop egT1.ibn ++ egD.label.drop egD.ibn)) ∧
      r.ibn = egT1.ibn + egD.ibn ∧
      r.bn = egT1.bn + egD.bn ∧
      ∀ I1i I2i I1o I2o : List Nat,
        I1i.length = egT1.ibn → I2i.length = egD.ibn →
        I1o.length = egT1.bn - egT1.ibn → I2o.length = egD.bn - egD.ibn →
        r.elem (I1i ++ (I2i ++ (I1o ++ I2o))) =
          egT1.elem (I1i ++ I1o) * egD.elem (I2i ++ I2o) :=
  contractNPT_outer egT1 egD (by decide) (by decide) (by decide) (by decide)
    (by decide) (by decide) (by decide) (by decide) (by decide)

/-! ### C7: `Network::launch` invoked twice -/

/-- A contraction tree over leaf indices (`Node_t` tree shape: a leaf wraps
a bound tensor, an internal node contracts its two children). -/
inductive NTree where
  | leaf : Nat → NTree
  | node : NTree → NTree → NTree

/-- Modelled from the spec (§4.5 `construct`; the body is only declared in
`Network.h`): a deterministic cached contraction plan over the leaves.  The
launch-idempotence statement below does not depend on which tree the greedy
construction picks, only on its determinism, so a left comb stands in. -/
def buildTree (n : Nat) : NTree :=
  (List.range (n - 1)).foldl (fun t i => NTree.node t (NTree.leaf (i + 1)))
    (NTree.leaf 0)

/-- Modelled from the spec (§4.5 `recSwap`, only declared in `Network.h`):
the label crossings of leaf `i` against every leaf already contracted —
a deterministic function of the label patterns; the exact crossing rule is
under-documented in the source (spec §9), idempotence does not depend on
it. -/
def computeSwaps (la : List (List Int)) (i : Nat) : List (Int × Int) :=
  ((la.take i).flatMap id).flatMap
    (fun a => (la.getD i []).map (fun b => (a, b)))

/-- The state of a `Network_t` (`Network.h`): the per-leaf label patterns,
the bound tensors, the TOUT output spec, the `load` flag, the cached tree,
and the fermionic bookkeeping `swaps_arr` with its `swapflags` (the flags
that avoid double application, spec §9). -/
structure Network_t where
  label_arr : List (List Int)
  tensors : List NPTensor
  toutLabels : List Int
  toutIbn : Nat
  fermionic : Int → Bool
  load : Bool
  root : Option NTree
  swaps_arr : List (List (Int × Int))
  swapflags : List Bool

/-- Modelled from the spec (§4.3.10 `addGate`, only declared in the
sources): applying a swap list multiplies elements by a sign; composition
of swaps is XOR on the sign, and only swaps whose two labels are fermionic
act. -/
def addGate (fermionic : Int → Bool) (t : NPTensor)
    (swaps : List (Int × Int)) : NPTensor :=
  { t with elem := fun I =>
      if (swaps.countP (fun p => fermionic p.1 && fermionic p.2)) % 2 = 1
      then - t.elem I else t.elem I }

/-- Modelled from the spec (§4.5 `recSwap` with the double-application
flags): for each leaf, if its flag is not yet set, compute and cache its
swap list, then set every flag. -/
def recSwap (net : Network_t) : Network_t :=
  { net with
    swaps_arr := (List.range net.label_arr.length).map (fun i =>
      if net.swapflags.getD i false = true then net.swaps_arr.getD i []
      else computeSwaps net.label_arr i)
    swapflags := List.replicate net.label_arr.length true }

/-- `construct()` guarded by `isLoaded` as in `launchNPT`
(`nptensor.py.in` lines 112-117): build and cache the tree once. -/
def constructN (net : Network_t) : Network_t :=
  if net.load = true then net
  else { net with load := true, root := some (buildTree net.label_arr.length) }

/-- `mergeNPT` (`nptensor.py.in` lines 98-110) with the cached swap list
applied at each leaf on its way in (spec §4.5 launch): postorder
contraction of the tree. -/
def mergeT (net : Network_t) : NTree → Option NPTensor
  | NTree.leaf i => some (addGate net.fermionic (net.tensors.getD i default)
      (net.swaps_arr.getD i []))
  | NTree.node l r =>
      match mergeT net l, mergeT net r with
      | some a, some b => contractNPT a b
      | _, _ => none

/-- The result part of `launchNPT` (`nptensor.py.in` lines 112-125): merge
the tree, then permute to the TOUT label order when one is given. -/
def launchRes (net : Network_t) : Option NPTensor :=
  match net.root with
  | none => none
  | some tr =>
      match mergeT net tr with
      | none => none
      | some npt =>
          if 0 < net.toutLabels.length then
            npt.permute net.toutLabels (net.toutIbn : Int)
          else some npt

/-- `launchNPT`: construct if not loaded, refresh the swap lists under the
flags, and evaluate; returns the output and the updated network state. -/
def launchNPT (net : Network_t) : Option NPTensor × Network_t :=
  (launchRes (recSwap (constructN net)), recSwap (constructN net))

theorem recSwap_recSwap (net : Network_t) :
    recSwap (recSwap net) = recSwap net := by
  cases net with
  | mk la te tl ti fm lo ro sa sf =>
      unfold recSwap
      simp only [Network_t.mk.injEq, and_true, true_and]
      apply List.ext_getElem
      · simp
      · intro k h1 h2
        have hk : k < la.length := by simpa using h2
        simp only [List.getElem_map, List.getElem_range]
        have hrep : (List.replicate la.length true).getD k false = true := by
          rw [List.getD_eq_getElem _ false (by simpa using hk)]
          simp
        rw [hrep, if_pos rfl]
        have hmap : ((List.range la.length).map (fun i =>
            if sf.getD i false = true then sa.getD i []
            else computeSwaps la i)).getD k [] =
            (fun i => if sf.getD i false = true then sa.getD i []
              else computeSwaps la i) ((List.range la.length).getD k 0) :=
          getD_map_of_lt _ _ k 0 [] (by simpa using hk)
        rw [hmap]
        have hr : (List.range la.length).getD k 0 = k := by
          rw [List.getD_eq_getElem _ 0 (by simpa using hk)]
          simp
        rw [hr]

/-- **C7.**  Launching a `Network` twice with identical bound input tensors
produces identical output tensors both times, and the per-leaf fermionic
swap lists applied at the leaves are the same on each launch — the flags
make the second `recSwap` a no-op, so swaps are not accumulated across
launches. -/
theorem launchNPT_idempotent (net : Network_t) :
    (launchNPT (launchNPT net).2).1 = (launchNPT net).1 ∧
    (launchNPT (launchNPT net).2).2.swaps_arr = (launchNPT net).2.swaps_arr ∧
    (launchNPT (launchNPT net).2).2 = (launchNPT net).2 := by
  have hload : (launchNPT net).2.load = true := by
    show (recSwap (constructN net)).load = true
    have h1 : (recSwap (constructN net)).load = (constructN net).load := rfl
    rw [h1]
    unfold constructN
    by_cases h : net.load = true
    · rw [if_pos h]
      exact h
    · rw [if_neg h]
  have hidem : recSwap (launchNPT net).2 = (launchNPT net).2 := by
    show recSwap (recSwap (constructN net)) = recSwap (constructN net)
    exact recSwap_recSwap _
  have hcon : constructN (launchNPT net).2 = (launchNPT net).2 := by
    unfold constructN
    rw [if_pos hload]
  have hstate : (launchNPT (launchNPT net).2).2 = (launchNPT net).2 := by
    show recSwap (constructN (launchNPT net).2) = (launchNPT net).2
    exact (congrArg recSwap hcon).trans hidem
  exact ⟨congrArg launchRes hstate, congrArg Network_t.swaps_arr hstate, hstate⟩
